import Mathlib

/-!
# Verification of the guardian_gateway inquiry-processing core

Shallow embedding of the repository's three core components and the
orchestration step, with theorems checking the natural-language
specification against the code.

* `src/services/mockAi.ts` — circuit breaker (`recordSuccess`,
  `recordFailure`, `checkCircuitTransition`, `callMockAi`,
  `getCircuitBreakerStatus`, `resetCircuitBreaker`).
* `src/utils/crypto.ts` — key resolution, HKDF per-user derivation and
  AES-256-GCM authenticated encryption (`getMasterKey`, `deriveUserKey`,
  `encrypt`, `decrypt`).  Node's library primitives (AES-GCM, HKDF-SHA256,
  base64, UTF-8, JSON) are modelled as an abstract `NodePrims` bundle; the
  repository logic on top of them is translated literally, and the library
  contracts appear as explicit hypotheses.
* `src/services/sanitizer.ts` — PII redaction.  The three JavaScript
  regular expressions and the `String.match` / `String.replace` scans are
  embedded as executable matchers over `List Char`, faithful to the
  backtracking engine's semantics (leftmost match, greedy/lazy
  quantifiers, `\b` word boundaries evaluated in context).
* `src/services/auditLog.ts` and `src/controllers/inquiry.ts` — the audit
  entry assembly and the orchestration step, with file-system and clock
  effects made explicit parameters.
-/

namespace GuardianGateway

/-! ## Circuit breaker (src/services/mockAi.ts)

The process-wide mutable `circuitState` singleton is modelled as an
explicit state value threaded through the operations.  `Date.now()` is an
explicit `now : Int` parameter (JS epoch milliseconds), and the
`Math.random() < FAILURE_RATE` draw is an explicit boolean parameter. -/

inductive BreakerState where
  | closed
  | open
  | halfOpen
deriving DecidableEq, Repr

structure CircuitBreakerState where
  state : BreakerState
  failures : Nat
  lastFailure : Option Int
  lastSuccess : Option Int
deriving DecidableEq, Repr

/-- Initial state of the singleton (`circuitState` literal in the source). -/
def initialCircuitState : CircuitBreakerState :=
  { state := .closed, failures := 0, lastFailure := none, lastSuccess := none }

def FAILURE_THRESHOLD : Nat := 3
def RESET_TIMEOUT : Int := 30000
def SIMULATED_DELAY : Int := 2000

/-- `checkCircuitTransition`: lazy OPEN → HALF_OPEN transition check. -/
def checkCircuitTransition (now : Int) (st : CircuitBreakerState) :
    CircuitBreakerState :=
  match st.lastFailure with
  | some lf =>
      if st.state = .open ∧ now - lf ≥ RESET_TIMEOUT then
        { st with state := .halfOpen }
      else st
  | none => st

/-- `recordSuccess`: record a successful downstream call. -/
def recordSuccess (now : Int) (st : CircuitBreakerState) : CircuitBreakerState :=
  let st := { st with lastSuccess := some now }
  if st.state = .halfOpen then
    { st with state := .closed, failures := 0 }
  else if st.state = .closed then
    { st with failures := 0 }
  else st

/-- `recordFailure`: record a failed downstream call. -/
def recordFailure (now : Int) (st : CircuitBreakerState) : CircuitBreakerState :=
  let st := { st with failures := st.failures + 1, lastFailure := some now }
  if st.state = .halfOpen then
    { st with state := .open }
  else if st.failures ≥ FAILURE_THRESHOLD then
    { st with state := .open }
  else st

/-- `resetCircuitBreaker`: administrative reset to the initial values. -/
def resetCircuitBreaker (_st : CircuitBreakerState) : CircuitBreakerState :=
  { state := .closed, failures := 0, lastFailure := none, lastSuccess := none }

/-- `AppError` payload (src/lib/error.ts shape used by the services). -/
structure AppError where
  status : Nat
  code : String
  message : String
deriving DecidableEq, Repr

/-- The 503 error built by `serviceUnavailableError()`. -/
def serviceUnavailableError : AppError :=
  { status := 503, code := "SERVICE_UNAVAILABLE", message := "Service Busy" }

structure MockAIResponse where
  answer : String
  processingTime : Int
deriving DecidableEq, Repr

/-- Observable side effects of one `callMockAi` call: whether the simulated
processing delay ran and whether a downstream call was attempted. -/
structure CallEffects where
  delayed : Bool
  attempted : Bool
deriving DecidableEq, Repr

structure CallOutcome where
  result : Except AppError MockAIResponse
  state : CircuitBreakerState
  effects : CallEffects

/-- `callMockAi(message)`: the resilient invocation.  `now` is the clock at
entry, `fail` the `Math.random() < FAILURE_RATE` draw made after the
simulated delay. -/
def callMockAi (st : CircuitBreakerState) (now : Int) (fail : Bool)
    (message : String) : CallOutcome :=
  let st1 := checkCircuitTransition now st
  if st1.state = .open then
    { result := .error serviceUnavailableError
      state := st1
      effects := { delayed := false, attempted := false } }
  else
    let now2 := now + SIMULATED_DELAY
    if fail then
      { result := .error
          { status := 500, code := "AI_SERVICE_ERROR",
            message := "Simulated AI service failure" }
        state := recordFailure now2 st1
        effects := { delayed := true, attempted := true } }
    else
      { result := .ok
          { answer := "This is a mock AI response to your message. Your query was "
              ++ toString message.length ++ " characters long."
            processingTime := now2 - now }
        state := recordSuccess now2 st1
        effects := { delayed := true, attempted := true } }

/-- Rendering of a `BreakerState` as the literal used on the wire. -/
def BreakerState.render : BreakerState → String
  | .closed => "closed"
  | .open => "open"
  | .halfOpen => "half-open"

structure CircuitBreakerStatus where
  state : String
  failures : Nat
  lastFailure : Option Int
  lastSuccess : Option Int
deriving DecidableEq, Repr

/-- `getCircuitBreakerStatus()`: performs the lazy transition check, then
reports the fields (timestamps abstracted as raw epoch values; the source
renders them in ISO 8601). -/
def getCircuitBreakerStatus (now : Int) (st : CircuitBreakerState) :
    CircuitBreakerStatus × CircuitBreakerState :=
  let st1 := checkCircuitTransition now st
  ({ state := st1.state.render
     failures := st1.failures
     lastFailure := st1.lastFailure
     lastSuccess := st1.lastSuccess }, st1)

/-! ## Sanitizer (src/services/sanitizer.ts)

The source applies three global JavaScript regexes in a fixed order:

* `EMAIL_REGEX       = /[a-zA-Z0-9._%+-]+@[a-zA-Z0-9.-]+\.[a-zA-Z]{2,}/g`
* `CREDIT_CARD_REGEX = /\b(?:\d[ -]*?){13,19}\b/g`
* `SSN_REGEX         = /\b(?:\d{3}-\d{2}-\d{4}|\d{9})\b/g`

Each regex is embedded as an executable matcher
`Option Char → List Char → Option Nat`: given the character preceding the
current position (`none` at the start of the string, needed for `\b`) and
the remaining text, it returns the length of the match the backtracking
engine produces at this position, or `none`.  The global scan of
`String.match` / `String.replace` (leftmost match, continue after each
match, matches never empty for these patterns) is `scanChunks`. -/

def isDigitCh (c : Char) : Bool := '0' ≤ c ∧ c ≤ '9'

def isLetterCh (c : Char) : Bool := ('A' ≤ c ∧ c ≤ 'Z') ∨ ('a' ≤ c ∧ c ≤ 'z')

/-- JS `\b` word characters for a non-unicode regex: `[A-Za-z0-9_]`. -/
def isWordCh (c : Char) : Bool := isLetterCh c || isDigitCh c || c = '_'

/-- The email local-part class `[a-zA-Z0-9._%+-]`. -/
def isLocalCh (c : Char) : Bool :=
  isLetterCh c || isDigitCh c || c = '.' || c = '_' || c = '%' || c = '+' || c = '-'

/-- The email domain class `[a-zA-Z0-9.-]`. -/
def isDomainCh (c : Char) : Bool := isLetterCh c || isDigitCh c || c = '.' || c = '-'

/-- The credit-card separator class `[ -]`. -/
def isSepCh (c : Char) : Bool := c = ' ' || c = '-'

def isWordOpt : Option Char → Bool
  | some c => isWordCh c
  | none => false

/-- Length of the maximal prefix of `l` whose characters satisfy `p`. -/
def runLen (p : Char → Bool) (l : List Char) : Nat := (l.takeWhile p).length

/-- `\b` between the character at index `i - 1` (always a word character at
the call sites) and the character at index `i` of `s`: holds iff the text
ends there or continues with a non-word character. -/
def bAfter (s : List Char) (i : Nat) : Bool := !isWordOpt (s.get? i)

/-- Backtracking search for `[a-zA-Z0-9.-]+\.[a-zA-Z]{2,}` on the text after
the `@`: the `+` is greedy, so domain lengths `j, j-1, …, 1` are tried in
order; for each, the literal dot must sit at index `j` and the greedy
`[a-zA-Z]{2,}` then takes the maximal letter run, which must have length at
least 2.  Returns the number of characters consumed. -/
def emailSplitFrom (s : List Char) : Nat → Option Nat
  | 0 => none
  | j + 1 =>
      let m := runLen isLetterCh (s.drop (j + 2))
      if s.get? (j + 1) = some '.' ∧ 2 ≤ m then some (j + 2 + m)
      else emailSplitFrom s j

/-- Match attempt for `EMAIL_REGEX` at the head of `s` (the pattern has no
`\b`, so the preceding character is irrelevant).  The greedy local part
`[a-zA-Z0-9._%+-]+` is the maximal run — shortening it can never help,
since the following literal `@` is not in the class — and must be followed
by `@`; the rest is `emailSplitFrom` over the maximal domain run. -/
def emailAt (s : List Char) : Option Nat :=
  let l := runLen isLocalCh s
  if l = 0 then none
  else
    match s.get? l with
    | some '@' =>
        match emailSplitFrom (s.drop (l + 1)) (runLen isDomainCh (s.drop (l + 1))) with
        | some n => some (l + 1 + n)
        | none => none
    | _ => none

def emailM (_ : Option Char) (s : List Char) : Option Nat := emailAt s

/-- Cumulative lengths consumed after 2nd, 3rd, … digits of a
digit/separator chain `\d ([ -]* \d)*` starting right after a digit:
`acc` characters are already consumed.  Each step skips the separator run
and requires a further digit. -/
def cardChainAux (r : List Char) (acc : Nat) : List Nat :=
  match h : r.drop (runLen isSepCh r) with
  | c :: r' =>
      if isDigitCh c then
        (acc + runLen isSepCh r + 1) :: cardChainAux r' (acc + runLen isSepCh r + 1)
      else []
  | [] => []
termination_by r.length
decreasing_by
  have hd : (r.drop (runLen isSepCh r)).length = r.length - runLen isSepCh r :=
    List.length_drop ..
  rw [h] at hd
  simp only [List.length_cons] at hd
  omega

/-- `cardChain s = [c₁, c₂, …]` where `cₙ` is the number of characters
consumed by a match of `(?:\d[ -]*?)` iterated `n` times that ends right
after its `n`-th digit (the lazy `[ -]*?` consumes exactly the separators
standing between consecutive digits, and never trailing ones — expanding
it at the end can never establish the final `\b`, see `cardAt`). -/
def cardChain (l : List Char) : List Nat :=
  match l with
  | c :: r => if isDigitCh c then 1 :: cardChainAux r 1 else []
  | [] => []

/-- Greedy `{13,19}`: try `n = hi, hi-1, …, 13` repetitions; a repetition
count succeeds when the closing `\b` holds after its last digit. -/
def cardTryN (s : List Char) (cs : List Nat) : Nat → Option Nat
  | 0 => none
  | n + 1 =>
      if 13 ≤ n + 1 then
        match cs.get? n with
        | some c => if bAfter s c then some c else cardTryN s cs n
        | none => cardTryN s cs n
      else none

/-- Match attempt for `CREDIT_CARD_REGEX` at the head of `s`.  The leading
`\b` requires a non-word (or absent) preceding character, since the first
matched character is a digit. -/
def cardAt (prev : Option Char) (s : List Char) : Option Nat :=
  if isWordOpt prev then none
  else
    let cs := cardChain s
    cardTryN s cs (min 19 cs.length)

/-- `\d{3}-\d{2}-\d{4}` at the head of `s`. -/
def ssnShape1 : List Char → Bool
  | a :: b :: c :: d :: e :: f :: g :: h :: i :: j :: k :: _ =>
      isDigitCh a && isDigitCh b && isDigitCh c && d = '-' &&
      isDigitCh e && isDigitCh f && g = '-' &&
      isDigitCh h && isDigitCh i && isDigitCh j && isDigitCh k
  | _ => false

/-- `\d{9}` at the head of `s`. -/
def ssnShape2 (s : List Char) : Bool := 9 ≤ runLen isDigitCh s

/-- Match attempt for `SSN_REGEX` at the head of `s`: the dashed
alternative is preferred, each alternative must be followed by `\b`. -/
def ssnAt (prev : Option Char) (s : List Char) : Option Nat :=
  if isWordOpt prev then none
  else if ssnShape1 s ∧ bAfter s 11 then some 11
  else if ssnShape2 s ∧ bAfter s 9 then some 9
  else none

/-- One piece of a global scan: an unmatched character or one match. -/
inductive Chunk where
  | gap (c : Char)
  | hit (consumed : List Char)
deriving DecidableEq, Repr

/-- The global scan shared by `String.match(re_g)` and
`String.replace(re_g, …)`: at each position try the matcher; on a match
consume it whole (these patterns never match the empty string; a
hypothetical empty match is treated as no match), otherwise emit the
character and advance by one.  `prev` tracks the preceding character for
`\b`. -/
def scanChunks (M : Option Char → List Char → Option Nat) :
    Option Char → List Char → List Chunk
  | _, [] => []
  | prev, c :: r =>
      match M prev (c :: r) with
      | some (n + 1) =>
          .hit ((c :: r).take (n + 1)) ::
            scanChunks M (((c :: r).take (n + 1)).getLast?) ((c :: r).drop (n + 1))
      | _ => .gap c :: scanChunks M (some c) r
termination_by _ l => l.length
decreasing_by
  · simp only [List.length_drop, List.length_cons]
    omega
  · simp only [List.length_cons]
    omega

/-- Reassemble a scan, replacing every match by the placeholder. -/
def renderPh (ph : List Char) : List Chunk → List Char
  | [] => []
  | .gap c :: rest => c :: renderPh ph rest
  | .hit _ :: rest => ph ++ renderPh ph rest

/-- Reassemble a scan verbatim. -/
def renderId : List Chunk → List Char
  | [] => []
  | .gap c :: rest => c :: renderId rest
  | .hit m :: rest => m ++ renderId rest

/-- Number of matches of a scan (`String.match(re_g).length`). -/
def countHits : List Chunk → Nat
  | [] => 0
  | .gap _ :: rest => countHits rest
  | .hit _ :: rest => countHits rest + 1

/-- `text.replace(regex, placeholder)` for a global regex. -/
def jsReplaceAll (M : Option Char → List Char → Option Nat) (ph : List Char)
    (s : List Char) : List Char :=
  renderPh ph (scanChunks M none s)

/-- Number of matches `text.match(regex)` reports (0 when it is `null`). -/
def jsMatchCount (M : Option Char → List Char → Option Nat)
    (s : List Char) : Nat :=
  countHits (scanChunks M none s)

/-- `regex.test(text)` for one of the three patterns: does any position of
the text carry a match (with `\b` evaluated in the full string context)? -/
def existsMatch (M : Option Char → List Char → Option Nat) :
    Option Char → List Char → Bool
  | _, [] => false
  | prev, c :: r => (M prev (c :: r)).isSome || existsMatch M (some c) r

inductive PIIType where
  | EMAIL
  | CREDIT_CARD
  | SSN
deriving DecidableEq, Repr

structure RedactedItem where
  type : PIIType
  count : Nat
deriving DecidableEq, Repr

structure SanitizeResult where
  redactedMessage : String
  redactedItems : List RedactedItem
deriving DecidableEq, Repr

def PIIType.matcher : PIIType → (Option Char → List Char → Option Nat)
  | .EMAIL => emailM
  | .CREDIT_CARD => cardAt
  | .SSN => ssnAt

/-- The `PII_PATTERNS` array: type and placeholder literal, in source
order. -/
def PII_PATTERNS : List (PIIType × String) :=
  [(.EMAIL, "<REDACTED: EMAIL>"),
   (.CREDIT_CARD, "<REDACTED: CREDIT_CARD>"),
   (.SSN, "<REDACTED: SSN>")]

/-- `sanitize(message)`: for each pattern in order, count the matches
against the current text (`match` returns `null`/empty ⇒ skip); when the
count is positive, record it in the insertion-ordered map and replace
every match with the placeholder.  The map is materialised as the
`redactedItems` list. -/
def sanitize (message : String) : SanitizeResult :=
  let step := fun (acc : List Char × List (PIIType × Nat))
      (pat : PIIType × String) =>
    let m := jsMatchCount pat.1.matcher acc.1
    if 0 < m then
      (jsReplaceAll pat.1.matcher pat.2.data acc.1, acc.2 ++ [(pat.1, m)])
    else acc
  let res := PII_PATTERNS.foldl step (message.data, [])
  { redactedMessage := ⟨res.1⟩
    redactedItems := res.2.map fun tn => { type := tn.1, count := tn.2 } }

/-! ### Reference algorithm of the spec (§4.1), for comparison with
`sanitize` (refinement claim): three sequential scans in the fixed order
EMAIL, CREDIT_CARD, SSN, each scanning the text as rewritten by the
previous scans; every non-overlapping match of a class is replaced by
`<REDACTED: CLASS>` built from the enum name; a summary entry is recorded
for a class only when its match count is positive (duplicates counted per
occurrence), entries in scan order. -/

/-- The enum name of a PII class. -/
def PIIType.className : PIIType → String
  | .EMAIL => "EMAIL"
  | .CREDIT_CARD => "CREDIT_CARD"
  | .SSN => "SSN"

/-- Spec wording: placeholder text is `<REDACTED: CLASS>` where CLASS is
the enum name. -/
def placeholderFor (t : PIIType) : String :=
  "<REDACTED: " ++ t.className ++ ">"

/-- Spec wording: the fixed scan priority order. -/
def scanOrder : List PIIType := [.EMAIL, .CREDIT_CARD, .SSN]

/-- Spec wording: one scan — replace every non-overlapping match of the
class with its placeholder and count the matches (per occurrence). -/
def specScan (t : PIIType) (text : List Char) : List Char × Nat :=
  (renderPh (placeholderFor t).data (scanChunks t.matcher none text),
   countHits (scanChunks t.matcher none text))

/-- Spec wording: sequential scans, each consuming the previous scan's
output; record an entry only when the count is positive. -/
def specScanAll : List PIIType → List Char → List Char × List RedactedItem
  | [], text => (text, [])
  | t :: ts, text =>
      let st := specScan t text
      let rest := specScanAll ts st.1
      (rest.1,
        if 0 < st.2 then { type := t, count := st.2 } :: rest.2 else rest.2)

/-- The reference sanitizer described by the spec. -/
def specSanitize (message : String) : SanitizeResult :=
  let res := specScanAll scanOrder message.data
  { redactedMessage := ⟨res.1⟩, redactedItems := res.2 }

/-! ### Proof-side helper predicates for the sanitizer invariant -/

/-- A character satisfying `p` at index `i` of a text. -/
def charAt (p : Char → Bool) (x : List Char) (i : Nat) : Prop :=
  ∃ ch, x.get? i = some ch ∧ p ch = true

/-- The characters an email match can consume. -/
def emailClass (c : Char) : Bool := isLocalCh c || isDomainCh c || c = '@'

/-- The characters a card or SSN match can consume. -/
def cardClass (c : Char) : Bool := isDigitCh c || isSepCh c

/-- A card block: digits with separator runs between consecutive digits —
the exact text consumed by `(?:\d[ -]*?){m}` when the lazy separator
quantifiers consume precisely the text standing between digits. -/
inductive CardBlock : List Char → Nat → Prop where
  | one (d : Char) (hd : isDigitCh d = true) : CardBlock [d] 1
  | more (d : Char) (seps b : List Char) (k : Nat)
      (hd : isDigitCh d = true) (hs : ∀ c ∈ seps, isSepCh c = true)
      (hb : CardBlock b k) : CardBlock (d :: (seps ++ b)) (k + 1)

/-! ## Key derivation and authenticated encryption (src/utils/crypto.ts)

Byte strings are `List Nat` (each element an octet).  The Node library
primitives the source calls — AES-256-GCM, HKDF-SHA256, base64 and UTF-8
codecs, `JSON.stringify`/`JSON.parse` of an `EncryptedPayload` — are an
abstract bundle `NodePrims`; their documented contracts (round-trip laws)
appear as hypotheses of the theorems that need them.  `process.env` is a
partial map, the validated `env` object contributes `APP_ENV` and
`AUDIT_KEY_VERSION`.  Exceptions (`throw`) are modelled with `Except`. -/

structure EncryptedPayload where
  ciphertext : String
  iv : String
  tag : String
  keyVersion : Nat
deriving DecidableEq, Repr

structure NodePrims where
  aeadEnc : List Nat → List Nat → List Nat → List Nat × List Nat
  aeadDec : List Nat → List Nat → List Nat → List Nat → Option (List Nat)
  hkdfSha256 : List Nat → String → List Nat
  sha256 : String → List Nat
  b64Encode : List Nat → String
  b64Decode : String → List Nat
  utf8Encode : String → List Nat
  utf8Decode : List Nat → String
  jsonStringifyPayload : EncryptedPayload → String
  jsonParsePayload : String → Option EncryptedPayload

structure Env where
  APP_ENV : String
  AUDIT_KEY_VERSION : Nat
  vars : String → Option String

/-- `getCurrentKeyVersion()`. -/
def getCurrentKeyVersion (env : Env) : Nat := env.AUDIT_KEY_VERSION

/-- The environment variable name holding the master key of a version:
`AUDIT_MASTER_KEY` for v1, `AUDIT_MASTER_KEY_V{n}` for later versions. -/
def masterKeyEnvName (version : Nat) : String :=
  if version = 1 then "AUDIT_MASTER_KEY"
  else "AUDIT_MASTER_KEY_V" ++ toString version

/-- Value of a hex digit, `Buffer.from(·, 'hex')` alphabet. -/
def hexVal (c : Char) : Option Nat :=
  if isDigitCh c then some (c.toNat - '0'.toNat)
  else if 'a' ≤ c ∧ c ≤ 'f' then some (c.toNat - 'a'.toNat + 10)
  else if 'A' ≤ c ∧ c ≤ 'F' then some (c.toNat - 'A'.toNat + 10)
  else none

/-- `Buffer.from(s, 'hex')`: decode hex pairs, stopping at the first
invalid pair (Node truncates there). -/
def hexDecodeAux : List Char → List Nat
  | c1 :: c2 :: rest =>
      match hexVal c1, hexVal c2 with
      | some h, some lo => (16 * h + lo) :: hexDecodeAux rest
      | _, _ => []
  | _ => []

def hexDecode (s : String) : List Nat := hexDecodeAux s.data

/-- `getMasterKey(version)`: use the configured hex secret when the
variable is set and non-empty (JS truthiness) — rejecting values that are
not 64 characters — otherwise synthesize a deterministic key in
development mode, and fail in any other mode. -/
def getMasterKey (prim : NodePrims) (env : Env) (version : Nat) :
    Except String (List Nat) :=
  let envKey := masterKeyEnvName version
  let keyHex? := match env.vars envKey with
    | some s => if s = "" then none else some s
    | none => none
  match keyHex? with
  | some keyHex =>
      if keyHex.length ≠ 64 then
        .error (envKey ++ " must be a 64-character hex string (32 bytes)")
      else .ok (hexDecode keyHex)
  | none =>
      if env.APP_ENV = "development" then
        .ok (prim.sha256 ("dev-master-key-v" ++ toString version))
      else .error (envKey ++ " is required in production")

/-- `deriveUserKey(masterKey, userId, keyVersion)`: HKDF-SHA256 with empty
salt, info `user:{userId}:v{keyVersion}`, 32-byte output. -/
def deriveUserKey (prim : NodePrims) (masterKey : List Nat) (userId : String)
    (keyVersion : Nat) : List Nat :=
  prim.hkdfSha256 masterKey ("user:" ++ userId ++ ":v" ++ toString keyVersion)

/-- `encrypt(plaintext, userId, keyVersion?)`: resolve the version
(explicit or current), derive the per-user key, AES-256-GCM under the
fresh 12-byte `iv` (the `crypto.randomBytes` draw is the explicit `iv`
parameter), and carry the version in the payload. -/
def encrypt (prim : NodePrims) (env : Env) (plaintext userId : String)
    (keyVersion? : Option Nat) (iv : List Nat) :
    Except String EncryptedPayload :=
  let version := keyVersion?.getD (getCurrentKeyVersion env)
  match getMasterKey prim env version with
  | .error e => .error e
  | .ok masterKey =>
      let userKey := deriveUserKey prim masterKey userId version
      let ct := prim.aeadEnc userKey iv (prim.utf8Encode plaintext)
      .ok { ciphertext := prim.b64Encode ct.1
            iv := prim.b64Encode iv
            tag := prim.b64Encode ct.2
            keyVersion := version }

/-- `decrypt(payload, userId)`: re-derive the key from
`payload.keyVersion` (never from the caller's current version), verify the
tag, fail closed on mismatch. -/
def decrypt (prim : NodePrims) (env : Env) (payload : EncryptedPayload)
    (userId : String) : Except String String :=
  match getMasterKey prim env payload.keyVersion with
  | .error e => .error e
  | .ok masterKey =>
      let userKey := deriveUserKey prim masterKey userId payload.keyVersion
      let ct := prim.b64Decode payload.ciphertext
      let iv := prim.b64Decode payload.iv
      let tag := prim.b64Decode payload.tag
      match prim.aeadDec userKey iv ct tag with
      | some pt => .ok (prim.utf8Decode pt)
      | none => .error "Unsupported state or unable to authenticate data"

/-! ## Audit log (src/services/auditLog.ts)

`writeAuditEntry` is modelled up to its persistence effect: the generated
`id` (`randomUUID()`) and `timestamp` (`new Date().toISOString()`) are
explicit parameters, and the function returns the full entry appended as a
JSON line to the log file.  Failures of the encryption step surface as the
error of the `Result`. -/

structure AuditEntry where
  id : String
  timestamp : String
  userId : String
  originalMessage : String
  redactedMessage : String
  aiResponse : Option String
  success : Bool
  keyVersion : Nat
deriving DecidableEq, Repr

/-- The argument record of `writeAuditEntry` (the entry minus the
generated `id` and `timestamp`). -/
structure AuditEntryInput where
  userId : String
  originalMessage : String
  redactedMessage : String
  aiResponse : Option String
  success : Bool
deriving DecidableEq, Repr

/-- `writeAuditEntry(entry)`: encrypt the original message for the user
under the current key version, serialize the payload into the
`originalMessage` column, and copy the payload's `keyVersion` into the
entry. -/
def writeAuditEntry (prim : NodePrims) (env : Env) (id timestamp : String)
    (iv : List Nat) (entry : AuditEntryInput) : Except String AuditEntry :=
  match encrypt prim env entry.originalMessage entry.userId none iv with
  | .error e => .error e
  | .ok pl =>
      .ok { id := id
            timestamp := timestamp
            userId := entry.userId
            originalMessage := prim.jsonStringifyPayload pl
            redactedMessage := entry.redactedMessage
            aiResponse := entry.aiResponse
            success := entry.success
            keyVersion := pl.keyVersion }

/-! ## Orchestration (src/controllers/inquiry.ts)

`processInquiry` sequences validation, sanitisation, the resilient mock-AI
call and the audit write.  The audit writes are reported as the list of
`writeAuditEntry` argument records the handler issues (the handler ignores
the audit write's own success).  The Zod schema bounds are inlined. -/

structure SecureInquiryResponse where
  userId : String
  redactedMessage : String
  aiResponse : String
  redactedItems : List RedactedItem
deriving DecidableEq, Repr

structure InquiryOutcome where
  result : Except AppError SecureInquiryResponse
  state : CircuitBreakerState
  auditWrites : List AuditEntryInput

/-- `processInquiry(body)` for `body = { userId, message }`, with the
breaker state, the clock and the random failure draw explicit. -/
def processInquiry (st : CircuitBreakerState) (now : Int) (fail : Bool)
    (userId message : String) : InquiryOutcome :=
  if userId.length < 1 ∨ message.length < 1 ∨ 10000 < message.length then
    let e : AppError :=
      { status := 400, code := "VALIDATION", message := "invalid request body" }
    { result := .error e
      state := st
      auditWrites := [] }
  else
    let sr := sanitize message
    let ai := callMockAi st now fail sr.redactedMessage
    match ai.result with
    | .error e =>
        if e.status = 503 then
          let w : AuditEntryInput :=
            { userId := userId, originalMessage := message,
              redactedMessage := sr.redactedMessage, aiResponse := none,
              success := false }
          { result := .error e
            state := ai.state
            auditWrites := [w] }
        else
          { result := .error e
            state := ai.state
            auditWrites := [] }
    | .ok resp =>
        let w : AuditEntryInput :=
          { userId := userId, originalMessage := message,
            redactedMessage := sr.redactedMessage,
            aiResponse := some resp.answer, success := true }
        let ok : SecureInquiryResponse :=
          { userId := userId, redactedMessage := sr.redactedMessage,
            aiResponse := resp.answer, redactedItems := sr.redactedItems }
        { result := .ok ok
          state := ai.state
          auditWrites := [w] }

/-! ## Concrete instances used by witnesses

A small concrete `NodePrims` bundle satisfying the library contracts on
the concrete data of the witnesses, plus concrete environments. -/

/-- Two lowercase hex digits of a byte (modelling helper). -/
def hexDigit (n : Nat) : Char :=
  if n < 10 then Char.ofNat ('0'.toNat + n) else Char.ofNat ('a'.toNat + n - 10)

def bytesToHex (l : List Nat) : String :=
  ⟨(l.map fun b => [hexDigit (b / 16 % 16), hexDigit (b % 16)]).flatten⟩

/-- Split a character list at `|` separators (modelling helper). -/
def splitBar : List Char → List (List Char)
  | [] => [[]]
  | c :: r =>
      if c = '|' then [] :: splitBar r
      else
        match splitBar r with
        | g :: gs => (c :: g) :: gs
        | [] => [[c]]

def witnessPrims : NodePrims :=
  { aeadEnc := fun _ _ m => (m, [])
    aeadDec := fun _ _ c _ => some c
    hkdfSha256 := fun _ _ => List.replicate 32 0
    sha256 := fun _ => List.replicate 32 1
    b64Encode := bytesToHex
    b64Decode := hexDecode
    utf8Encode := fun s => s.data.map Char.toNat
    utf8Decode := fun l => ⟨l.map Char.ofNat⟩
    jsonStringifyPayload := fun pl =>
      ⟨pl.ciphertext.data ++ '|' :: pl.iv.data ++ '|' :: pl.tag.data ++
        '|' :: List.replicate pl.keyVersion 'v'⟩
    jsonParsePayload := fun s =>
      match splitBar s.data with
      | [a, b, c, d] =>
          if d.all (· = 'v') then
            some { ciphertext := ⟨a⟩, iv := ⟨b⟩, tag := ⟨c⟩,
                   keyVersion := d.length }
          else none
      | _ => none }

def devEnv : Env :=
  { APP_ENV := "development", AUDIT_KEY_VERSION := 1, vars := fun _ => none }

/-- A development environment whose current key version has moved to 2. -/
def devEnvV2 : Env :=
  { APP_ENV := "development", AUDIT_KEY_VERSION := 2, vars := fun _ => none }

/-- A `test`-mode environment with no configured keys. -/
def testEnv : Env :=
  { APP_ENV := "test", AUDIT_KEY_VERSION := 1, vars := fun _ => none }

/-- The previous character after consuming `u`. -/
def prevAfter (prev : Option Char) (u : List Char) : Option Char :=
  match u.getLast? with
  | some c => some c
  | none => prev

/-- Relation between the previous character seen by a later scan of the
rewritten text (`prevOut`) and the one seen by the earlier scan of the
original text (`prevIn`) at the same residual input `l`: either the two
agree on wordness, or the later scan sits right after a placeholder (a
non-word character) and `l` cannot start a digit-anchored match anyway. -/
def scanInv (prevOut prevIn : Option Char) (l : List Char) : Prop :=
  isWordOpt prevOut = isWordOpt prevIn ∨
    (isWordOpt prevOut = false ∧
      (l = [] ∨ ∃ c r', l = c :: r' ∧ isWordCh c = false))

/-! ### Breaker theorems -/

/-- C5: the outcome-recording step relation of the breaker.
From CLOSED, a recorded failure that brings the count to the threshold
(3) opens the circuit; from HALF_OPEN a single success closes it with the
count reset to 0; from HALF_OPEN a single failure reopens it immediately;
and any `recordSuccess` or `resetCircuitBreaker` result that is CLOSED has
count 0 (every transition into CLOSED resets the count). -/
theorem breaker_record_transitions (st : CircuitBreakerState) (now : Int) :
    (st.state = .closed → st.failures + 1 ≥ FAILURE_THRESHOLD →
      (recordFailure now st).state = .open) ∧
    (st.state = .halfOpen →
      (recordSuccess now st).state = .closed ∧
        (recordSuccess now st).failures = 0) ∧
    (st.state = .halfOpen → (recordFailure now st).state = .open) ∧
    ((recordSuccess now st).state = .closed →
      (recordSuccess now st).failures = 0) ∧
    ((resetCircuitBreaker st).state = .closed ∧
      (resetCircuitBreaker st).failures = 0) := by
  obtain ⟨s, f, lf, ls⟩ := st
  refine ⟨?_, ?_, ?_, ?_, ?_, ?_⟩ <;>
    cases s <;>
      simp_all [recordFailure, recordSuccess, resetCircuitBreaker,
        FAILURE_THRESHOLD]

/-- C5 witness at a concrete HALF_OPEN state. -/
theorem breaker_record_transitions_witness :
    let st : CircuitBreakerState :=
      { state := .halfOpen, failures := 2, lastFailure := some 5,
        lastSuccess := none }
    (recordSuccess 9 st).state = .closed ∧ (recordSuccess 9 st).failures = 0 :=
  (breaker_record_transitions
    { state := .halfOpen, failures := 2, lastFailure := some 5,
      lastSuccess := none } 9).2.1 rfl

/-- C6: when the post-check state is OPEN, `callMockAi` returns the 503
SERVICE_UNAVAILABLE error with no downstream attempt and no simulated
delay; every error it ever returns is either that rejection (without an
attempt) or the distinct 500 AI_SERVICE_ERROR downstream error (with an
attempt), so the caller-visible error kinds are exactly those two. -/
theorem callMockAi_error_kinds (st : CircuitBreakerState) (now : Int)
    (fail : Bool) (msg : String) :
    ((checkCircuitTransition now st).state = .open →
      (callMockAi st now fail msg).result = .error serviceUnavailableError ∧
      (callMockAi st now fail msg).effects.attempted = false ∧
      (callMockAi st now fail msg).effects.delayed = false) ∧
    (∀ e, (callMockAi st now fail msg).result = .error e →
      (e.code = "SERVICE_UNAVAILABLE" ∧ e.status = 503 ∧
        (callMockAi st now fail msg).effects.attempted = false) ∨
      (e.code = "AI_SERVICE_ERROR" ∧ e.status = 500 ∧
        (callMockAi st now fail msg).effects.attempted = true)) ∧
    "SERVICE_UNAVAILABLE" ≠ "AI_SERVICE_ERROR" := by
  refine ⟨?_, ?_, by decide⟩
  · intro h
    simp [callMockAi, h, serviceUnavailableError]
  · intro e he
    by_cases h : (checkCircuitTransition now st).state = .open
    · simp [callMockAi, h, serviceUnavailableError] at he ⊢
      subst he
      simp [serviceUnavailableError]
    · cases fail
      · simp_all [callMockAi, serviceUnavailableError]
      · simp_all [callMockAi, serviceUnavailableError]
        subst he
        simp

/-- C6 witness: a concrete OPEN breaker rejects without attempting. -/
theorem callMockAi_error_kinds_witness :
    let st : CircuitBreakerState :=
      { state := .open, failures := 3, lastFailure := some 1000,
        lastSuccess := none }
    (callMockAi st 2000 false "hi").result = .error serviceUnavailableError ∧
      (callMockAi st 2000 false "hi").effects.attempted = false ∧
      (callMockAi st 2000 false "hi").effects.delayed = false :=
  (callMockAi_error_kinds
    { state := .open, failures := 3, lastFailure := some 1000,
      lastSuccess := none } 2000 false "hi").1 (by decide)

/-- C7: the OPEN → HALF_OPEN transition is evaluated lazily.  The check
moves an OPEN state with a set `lastFailure` to HALF_OPEN exactly when
`now - lastFailure ≥ 30000`, and is the identity otherwise; both the
status read and the invocation apply it before proceeding (the status
reflects the checked state, and an OPEN breaker past the timeout is
invoked as HALF_OPEN, i.e. the downstream call is attempted). -/
theorem lazy_half_open_transition (st : CircuitBreakerState) (now : Int)
    (fail : Bool) (msg : String) :
    (∀ lf, st.state = .open → st.lastFailure = some lf →
      now - lf ≥ RESET_TIMEOUT →
      checkCircuitTransition now st = { st with state := .halfOpen }) ∧
    (∀ lf, st.lastFailure = some lf → now - lf < RESET_TIMEOUT →
      checkCircuitTransition now st = st) ∧
    (st.state ≠ .open → checkCircuitTransition now st = st) ∧
    (st.lastFailure = none → checkCircuitTransition now st = st) ∧
    ((getCircuitBreakerStatus now st).1.state =
      ((checkCircuitTransition now st).state).render ∧
     (getCircuitBreakerStatus now st).2 = checkCircuitTransition now st) ∧
    (∀ lf, st.state = .open → st.lastFailure = some lf →
      now - lf ≥ RESET_TIMEOUT →
      (callMockAi st now fail msg).effects.attempted = true) := by
  obtain ⟨s, f, lf0, ls0⟩ := st
  refine ⟨?_, ?_, ?_, ?_, ⟨rfl, rfl⟩, ?_⟩
  · intro lf hs hlf hge
    simp_all [checkCircuitTransition]
  · intro lf hlf hlt
    simp only at hlf
    subst hlf
    simp [checkCircuitTransition]
    intro hs
    omega
  · intro hs
    cases lf0 <;> simp_all [checkCircuitTransition]
  · intro h
    simp only at h
    subst h
    simp [checkCircuitTransition]
  · intro lf hs hlf hge
    simp only at hs hlf
    subst hs; subst hlf
    have hck : checkCircuitTransition now
        { state := .open, failures := f, lastFailure := some lf,
          lastSuccess := ls0 } =
        { state := .halfOpen, failures := f, lastFailure := some lf,
          lastSuccess := ls0 } := by
      simp [checkCircuitTransition, hge]
    cases fail <;> simp [callMockAi, hck]

/-- C7 witness: exactly at the timeout a status read reports half-open;
below it nothing changes. -/
theorem lazy_half_open_transition_witness :
    let st : CircuitBreakerState :=
      { state := .open, failures := 3, lastFailure := some 0,
        lastSuccess := none }
    checkCircuitTransition 30000 st = { st with state := .halfOpen } ∧
      checkCircuitTransition 29999 st = st :=
  ⟨(lazy_half_open_transition
      { state := .open, failures := 3, lastFailure := some 0,
        lastSuccess := none } 30000 false "m").1 0 rfl rfl (by decide),
   (lazy_half_open_transition
      { state := .open, failures := 3, lastFailure := some 0,
        lastSuccess := none } 29999 false "m").2.1 0 rfl (by decide)⟩


/-! ### Crypto theorems -/

/-- C2: round-trip.  For every plaintext, userId and version whose master
key resolves, decrypting an encryption succeeds and returns the
plaintext; decryption re-derives the key from the version carried in the
payload, so it works under any later environment `env2` (in particular
one whose *current* version has changed) in which the payload's version
is still resolvable.  The hypotheses are the documented contracts of the
Node primitives (AES-256-GCM round-trip, base64 and UTF-8 codecs) at the
values involved. -/
theorem encrypt_decrypt_roundtrip
    (prim : NodePrims) (env env2 : Env) (p u : String) (v : Nat)
    (iv mk : List Nat)
    (hmk : getMasterKey prim env v = .ok mk)
    (hmk2 : getMasterKey prim env2 v = .ok mk)
    (hB64ct : prim.b64Decode (prim.b64Encode
      (prim.aeadEnc (deriveUserKey prim mk u v) iv (prim.utf8Encode p)).1) =
      (prim.aeadEnc (deriveUserKey prim mk u v) iv (prim.utf8Encode p)).1)
    (hB64iv : prim.b64Decode (prim.b64Encode iv) = iv)
    (hB64tag : prim.b64Decode (prim.b64Encode
      (prim.aeadEnc (deriveUserKey prim mk u v) iv (prim.utf8Encode p)).2) =
      (prim.aeadEnc (deriveUserKey prim mk u v) iv (prim.utf8Encode p)).2)
    (hAead : prim.aeadDec (deriveUserKey prim mk u v) iv
      (prim.aeadEnc (deriveUserKey prim mk u v) iv (prim.utf8Encode p)).1
      (prim.aeadEnc (deriveUserKey prim mk u v) iv (prim.utf8Encode p)).2 =
      some (prim.utf8Encode p))
    (hUtf : prim.utf8Decode (prim.utf8Encode p) = p) :
    ∃ pl, encrypt prim env p u (some v) iv = .ok pl ∧ pl.keyVersion = v ∧
      decrypt prim env2 pl u = .ok p := by
  have hpl : encrypt prim env p u (some v) iv = .ok
      { ciphertext := prim.b64Encode
          (prim.aeadEnc (deriveUserKey prim mk u v) iv (prim.utf8Encode p)).1,
        iv := prim.b64Encode iv,
        tag := prim.b64Encode
          (prim.aeadEnc (deriveUserKey prim mk u v) iv (prim.utf8Encode p)).2,
        keyVersion := v } := by
    simp [encrypt, hmk]
  refine ⟨_, hpl, rfl, ?_⟩
  simp only [decrypt, hmk2, hB64ct, hB64iv, hB64tag, hAead, hUtf]

/-- C2 witness: a concrete round-trip, with the payload encrypted under
version 1 and decrypted in an environment whose current version is 2. -/
theorem encrypt_decrypt_roundtrip_witness :
    ∃ pl, encrypt witnessPrims devEnv "hi" "u7" (some 1) (List.range 12) =
        .ok pl ∧ pl.keyVersion = 1 ∧
      decrypt witnessPrims devEnvV2 pl "u7" = .ok "hi" :=
  encrypt_decrypt_roundtrip witnessPrims devEnv devEnvV2 "hi" "u7" 1
    (List.range 12) (List.replicate 32 1)
    rfl rfl (by decide) (by decide) (by decide) rfl (by decide)

/-- C9 counterexample: in `test` mode — a non-production mode — with no
key configured, `getMasterKey` fails instead of synthesizing a
deterministic key; the claimed fallback exists only in `development`
mode. -/
theorem getMasterKey_test_mode_fails :
    testEnv.APP_ENV ≠ "production" ∧
    testEnv.vars (masterKeyEnvName 1) = none ∧
    getMasterKey witnessPrims testEnv 1 =
      .error "AUDIT_MASTER_KEY is required in production" := by
  refine ⟨by decide, rfl, rfl⟩

/-- C9 (amended): `getMasterKey` returns the configured secret when the
variable holds a (non-empty) 64-character hex string and rejects other
configured values; when nothing is configured it synthesizes the
deterministic `dev-master-key-v{n}` digest in `development` mode only,
and fails in every other mode (production and test alike). -/
theorem getMasterKey_resolution (prim : NodePrims) (env : Env)
    (version : Nat) :
    (∀ keyHex, env.vars (masterKeyEnvName version) = some keyHex →
      keyHex ≠ "" → keyHex.length = 64 →
      getMasterKey prim env version = .ok (hexDecode keyHex)) ∧
    (∀ keyHex, env.vars (masterKeyEnvName version) = some keyHex →
      keyHex ≠ "" → keyHex.length ≠ 64 →
      getMasterKey prim env version =
        .error (masterKeyEnvName version ++
          " must be a 64-character hex string (32 bytes)")) ∧
    ((env.vars (masterKeyEnvName version) = none ∨
      env.vars (masterKeyEnvName version) = some "") →
      env.APP_ENV = "development" →
      getMasterKey prim env version =
        .ok (prim.sha256 ("dev-master-key-v" ++ toString version))) ∧
    ((env.vars (masterKeyEnvName version) = none ∨
      env.vars (masterKeyEnvName version) = some "") →
      env.APP_ENV ≠ "development" →
      ∃ msg, getMasterKey prim env version = .error msg) := by
  refine ⟨?_, ?_, ?_, ?_⟩
  · intro keyHex hv hne hlen
    simp [getMasterKey, hv, hne, hlen]
  · intro keyHex hv hne hlen
    simp [getMasterKey, hv, hne, hlen]
  · rintro (hv | hv) hdev <;> simp [getMasterKey, hv, hdev]
  · rintro (hv | hv) hdev <;>
      exact ⟨masterKeyEnvName version ++ " is required in production",
        by simp [getMasterKey, hv, hdev]⟩

/-- C9 witness: the development fallback at version 5, and a configured
64-character key at version 1. -/
theorem getMasterKey_resolution_witness :
    getMasterKey witnessPrims devEnv 5 =
      .ok (witnessPrims.sha256 ("dev-master-key-v" ++ toString 5)) ∧
    (∀ keyHex, devEnv.vars (masterKeyEnvName 5) = some keyHex → keyHex ≠ "" →
      keyHex.length = 64 → getMasterKey witnessPrims devEnv 5 =
        .ok (hexDecode keyHex)) :=
  ⟨(getMasterKey_resolution witnessPrims devEnv 5).2.2.1 (Or.inl rfl) rfl,
   (getMasterKey_resolution witnessPrims devEnv 5).1⟩

/-- C10: the audit entry built by `writeAuditEntry` is internally
consistent on key version: its top-level `keyVersion` equals the
`keyVersion` inside the serialized payload stored in `originalMessage`,
and both equal the current version `encrypt` actually used.  The
hypothesis `hJson` is the `JSON.parse`/`JSON.stringify` round-trip
contract at this payload. -/
theorem audit_entry_key_version_consistent
    (prim : NodePrims) (env : Env) (id ts : String) (iv : List Nat)
    (input : AuditEntryInput) (pl : EncryptedPayload)
    (henc : encrypt prim env input.originalMessage input.userId none iv =
      .ok pl)
    (hJson : prim.jsonParsePayload (prim.jsonStringifyPayload pl) = some pl) :
    ∃ e, writeAuditEntry prim env id ts iv input = .ok e ∧
      e.originalMessage = prim.jsonStringifyPayload pl ∧
      prim.jsonParsePayload e.originalMessage = some pl ∧
      e.keyVersion = pl.keyVersion ∧
      pl.keyVersion = getCurrentKeyVersion env := by
  have hw : writeAuditEntry prim env id ts iv input = .ok
      { id := id, timestamp := ts, userId := input.userId,
        originalMessage := prim.jsonStringifyPayload pl,
        redactedMessage := input.redactedMessage,
        aiResponse := input.aiResponse, success := input.success,
        keyVersion := pl.keyVersion } := by
    simp [writeAuditEntry, henc]
  refine ⟨_, hw, rfl, hJson, rfl, ?_⟩
  simp only [encrypt, Option.getD] at henc
  split at henc
  · cases henc
  · simp only [Except.ok.injEq] at henc
    subst henc
    rfl

/-- C10 witness: a concrete audit write in the development environment. -/
theorem audit_entry_key_version_consistent_witness :
    ∃ e, writeAuditEntry witnessPrims devEnv "id0" "t0" (List.range 12)
        { userId := "u", originalMessage := "hi", redactedMessage := "hi",
          aiResponse := none, success := true } = .ok e ∧
      e.originalMessage = witnessPrims.jsonStringifyPayload
        { ciphertext := "6869", iv := "000102030405060708090a0b",
          tag := "", keyVersion := 1 } ∧
      witnessPrims.jsonParsePayload e.originalMessage = some
        { ciphertext := "6869", iv := "000102030405060708090a0b",
          tag := "", keyVersion := 1 } ∧
      e.keyVersion = EncryptedPayload.keyVersion
        { ciphertext := "6869", iv := "000102030405060708090a0b",
          tag := "", keyVersion := 1 } ∧
      EncryptedPayload.keyVersion
        { ciphertext := "6869", iv := "000102030405060708090a0b",
          tag := "", keyVersion := 1 } = getCurrentKeyVersion devEnv :=
  audit_entry_key_version_consistent witnessPrims devEnv "id0" "t0"
    (List.range 12)
    { userId := "u", originalMessage := "hi", redactedMessage := "hi",
      aiResponse := none, success := true }
    { ciphertext := "6869", iv := "000102030405060708090a0b",
      tag := "", keyVersion := 1 }
    rfl (by decide)

/-! ### Orchestration theorem -/

/-- C1 exhibit: the orchestration step does *not* write an audit entry on
an attempted-but-failed downstream call.  From the initial CLOSED state
with the random draw failing, `callMockAi` attempts the call and returns
the 500 `AI_SERVICE_ERROR`; `processInquiry` then returns that error with
an empty audit-write list — while the breaker-rejection (503) outcome and
the success outcome each produce exactly one audit write. -/
theorem processInquiry_downstream_error_skips_audit :
    (processInquiry initialCircuitState 0 true "u1" "hello").auditWrites
        = [] ∧
    (processInquiry initialCircuitState 0 true "u1" "hello").result =
      .error { status := 500, code := "AI_SERVICE_ERROR",
               message := "Simulated AI service failure" } ∧
    (processInquiry
      { state := .open, failures := 3, lastFailure := some 0,
        lastSuccess := none } 0 true "u1" "hello").auditWrites.length = 1 ∧
    (processInquiry initialCircuitState 0 false
      "u1" "hello").auditWrites.length = 1 := by
  refine ⟨rfl, rfl, rfl, rfl⟩

/-! ### Sanitizer scan lemmas -/

/-- Reassembling a scan verbatim gives back the input. -/
theorem renderId_scanChunks (M : Option Char → List Char → Option Nat) :
    ∀ (prev : Option Char) (l : List Char),
      renderId (scanChunks M prev l) = l := by
  intro prev l
  induction prev, l using scanChunks.induct M with
  | case1 prev => simp [scanChunks, renderId]
  | case2 prev c r n hm ih =>
      rw [scanChunks]
      simp only [hm, renderId, ih]
      exact List.take_append_drop _ _
  | case3 prev c r hnm ih =>
      rw [scanChunks]
      rcases hM : M prev (c :: r) with - | n
      · simp only [renderId, ih]
      · cases n with
        | zero => simp only [renderId, ih]
        | succ n => exact absurd hM (by intro h; exact hnm n h)

/-- A text with no match anywhere scans to all-gap chunks. -/
theorem scanChunks_of_no_match (M : Option Char → List Char → Option Nat) :
    ∀ (prev : Option Char) (l : List Char),
      existsMatch M prev l = false → scanChunks M prev l = l.map .gap := by
  intro prev l
  induction prev, l using scanChunks.induct M with
  | case1 prev => intro _; simp [scanChunks]
  | case2 prev c r n hm ih =>
      intro hno
      simp only [existsMatch, Bool.or_eq_false_iff] at hno
      rw [hm] at hno
      simp at hno
  | case3 prev c r hnm ih =>
      intro hno
      simp only [existsMatch, Bool.or_eq_false_iff] at hno
      rw [scanChunks]
      rcases hM : M prev (c :: r) with - | n
      · simp [ih hno.2]
      · cases n with
        | zero => simp [ih hno.2]
        | succ n => exact absurd hM (by intro h; exact hnm n h)

theorem renderPh_map_gap (ph : List Char) :
    ∀ l : List Char, renderPh ph (l.map .gap) = l := by
  intro l
  induction l with
  | nil => rfl
  | cons c r ih => simp [renderPh, ih]

theorem countHits_map_gap :
    ∀ l : List Char, countHits (l.map .gap) = 0 := by
  intro l
  induction l with
  | nil => rfl
  | cons c r ih => simp [countHits, ih]

/-- With no hits, placeholder substitution is the identity reassembly. -/
theorem renderPh_eq_renderId_of_no_hits (ph : List Char) :
    ∀ cs : List Chunk, countHits cs = 0 → renderPh ph cs = renderId cs := by
  intro cs
  induction cs with
  | nil => intro _; rfl
  | cons ck rest ih =>
      intro h
      cases ck with
      | gap c => simp_all [countHits, renderPh, renderId]
      | hit m => simp [countHits] at h

/-- Rewriting one pattern of `sanitize`'s loop agrees with one scan of the
reference algorithm. -/
theorem sanitize_foldl_spec (ts : List PIIType) :
    ∀ (text : List Char) (acc : List (PIIType × Nat)),
      (ts.map fun t => (t, placeholderFor t)).foldl
        (fun (acc : List Char × List (PIIType × Nat))
            (pat : PIIType × String) =>
          let m := jsMatchCount pat.1.matcher acc.1
          if 0 < m then
            (jsReplaceAll pat.1.matcher pat.2.data acc.1, acc.2 ++ [(pat.1, m)])
          else acc) (text, acc) =
      ((specScanAll ts text).1,
        acc ++ (specScanAll ts text).2.map fun i => (i.type, i.count)) := by
  induction ts with
  | nil => intro text acc; simp [specScanAll]
  | cons t ts ih =>
      intro text acc
      simp only [List.map_cons, List.foldl_cons, specScanAll]
      by_cases hm : 0 < jsMatchCount t.matcher text
      · have hm' : 0 < countHits (scanChunks t.matcher none text) := by
          simpa [jsMatchCount] using hm
        simp only [specScan, if_pos hm, ih]
        rw [if_pos hm']
        simp [jsReplaceAll, jsMatchCount, List.append_assoc]
      · simp only [specScan, hm, if_neg hm, ih]
        have h0 : countHits (scanChunks t.matcher none text) = 0 := by
          simpa [jsMatchCount] using Nat.eq_zero_of_not_pos hm
        have hrender : renderPh (placeholderFor t).data
            (scanChunks t.matcher none text) = text := by
          rw [renderPh_eq_renderId_of_no_hits _ _ h0, renderId_scanChunks]
        simp [hrender, h0]

/-- C4: `sanitize` implements the reference algorithm of the spec — three
sequential scans in the fixed order EMAIL, CREDIT_CARD, SSN, each
matching against the already-rewritten text, replacing every
non-overlapping match with the `<REDACTED: CLASS>` placeholder built from
the enum name, recording a summary entry exactly for the classes with a
positive match count (duplicates counted per occurrence), in scan
order. -/
theorem sanitize_implements_reference (s : String) :
    sanitize s = specSanitize s := by
  have hpat : PII_PATTERNS = scanOrder.map fun t => (t, placeholderFor t) := by
    decide
  have h := sanitize_foldl_spec scanOrder s.data ([] : List (PIIType × Nat))
  unfold sanitize specSanitize
  rw [hpat]
  simp only [h, List.nil_append, List.map_map]
  congr 1
  exact List.map_id _

/-- C8: `sanitize` is total by construction, and on any input in which no
pattern matches anywhere — the empty string and whitespace-only strings
included — it returns the input unchanged with an empty summary. -/
theorem sanitize_identity_of_no_pii (s : String)
    (hE : existsMatch emailM none s.data = false)
    (hC : existsMatch cardAt none s.data = false)
    (hS : existsMatch ssnAt none s.data = false) :
    sanitize s = { redactedMessage := s, redactedItems := [] } := by
  have hcount : ∀ M, existsMatch M none s.data = false →
      jsMatchCount M s.data = 0 := by
    intro M h
    rw [jsMatchCount, scanChunks_of_no_match M none s.data h, countHits_map_gap]
  unfold sanitize
  simp only [PII_PATTERNS, List.foldl_cons, List.foldl_nil, PIIType.matcher]
  rw [hcount _ hE]
  simp only [lt_self_iff_false, if_false, ite_false]
  rw [hcount _ hC]
  simp only [lt_self_iff_false, if_false, ite_false]
  rw [hcount _ hS]
  simp only [lt_self_iff_false, if_false, ite_false]
  rfl

/-- C8 witness: a whitespace-only input is returned exactly. -/
theorem sanitize_identity_of_no_pii_witness :
    sanitize "  " = { redactedMessage := "  ", redactedItems := [] } :=
  sanitize_identity_of_no_pii "  " (by decide) (by decide) (by decide)


/-! ### Run-length lemmas

Facts about `runLen` (maximal prefix satisfying a character predicate)
used to reason about the greedy character-class runs of the matchers. -/

theorem runLen_nil (p : Char → Bool) : runLen p [] = 0 := rfl

theorem runLen_cons_pos {p : Char → Bool} {c : Char} (h : p c = true)
    (l : List Char) : runLen p (c :: l) = runLen p l + 1 := by
  simp [runLen, List.takeWhile_cons, h]

theorem runLen_cons_neg {p : Char → Bool} {c : Char} (h : p c = false)
    (l : List Char) : runLen p (c :: l) = 0 := by
  simp [runLen, List.takeWhile_cons, h]

theorem runLen_le_length (p : Char → Bool) (l : List Char) :
    runLen p l ≤ l.length := by
  induction l with
  | nil => simp [runLen_nil]
  | cons c r ih =>
      cases h : p c with
      | true => simp [runLen_cons_pos h]; omega
      | false => simp [runLen_cons_neg h]

/-- Characters strictly inside the run satisfy the predicate. -/
theorem runLen_mem {p : Char → Bool} :
    ∀ {l : List Char} {i : Nat}, i < runLen p l →
      ∃ ch, l.get? i = some ch ∧ p ch = true := by
  intro l
  induction l with
  | nil => intro i h; simp [runLen_nil] at h
  | cons c r ih =>
      intro i h
      cases hc : p c with
      | false => rw [runLen_cons_neg hc] at h; omega
      | true =>
          rw [runLen_cons_pos hc] at h
          cases i with
          | zero => exact ⟨c, rfl, hc⟩
          | succ i => exact ih (by omega)

/-- The character just past the run (when present) breaks the predicate. -/
theorem runLen_stop {p : Char → Bool} :
    ∀ {l : List Char} {ch : Char}, l.get? (runLen p l) = some ch →
      p ch = false := by
  intro l
  induction l with
  | nil => intro ch h; simp at h
  | cons c r ih =>
      intro ch h
      cases hc : p c with
      | false =>
          rw [runLen_cons_neg hc] at h
          simp at h
          rwa [h] at hc
      | true =>
          rw [runLen_cons_pos hc] at h
          exact ih h

theorem runLen_append_of_all {p : Char → Bool} {u : List Char}
    (h : ∀ c ∈ u, p c = true) (t : List Char) :
    runLen p (u ++ t) = u.length + runLen p t := by
  induction u with
  | nil => simp
  | cons c r ih =>
      have hc : p c = true := h c (by simp)
      simp only [List.cons_append, runLen_cons_pos hc,
        ih (fun d hd => h d (by simp [hd])), List.length_cons]
      omega

theorem runLen_append_of_break {p : Char → Bool} {u : List Char}
    (h : ∃ c ∈ u, p c = false) (t : List Char) :
    runLen p (u ++ t) = runLen p u ∧ runLen p u < u.length := by
  induction u with
  | nil => rcases h with ⟨c, hc, -⟩; simp at hc
  | cons c r ih =>
      cases hc : p c with
      | false =>
          constructor
          · simp [runLen_cons_neg hc]
          · simp [runLen_cons_neg hc]
      | true =>
          have h' : ∃ d ∈ r, p d = false := by
            rcases h with ⟨d, hd, hdp⟩
            rcases List.mem_cons.1 hd with rfl | hd
            · rw [hc] at hdp; cases hdp
            · exact ⟨d, hd, hdp⟩
          rcases ih h' with ⟨h1, h2⟩
          refine ⟨?_, ?_⟩
          · simp [List.cons_append, runLen_cons_pos hc, h1]
          · simp [runLen_cons_pos hc]; omega

/-- At least the first two letters count. -/
theorem runLen_ge_two {p : Char → Bool} {a b : Char}
    (ha : p a = true) (hb : p b = true) (t : List Char) :
    2 ≤ runLen p (a :: b :: t) := by
  rw [runLen_cons_pos ha, runLen_cons_pos hb]
  omega
/-! ### Generic position lemmas -/

theorem take_eq_of_agree {x y : List Char} {c : Nat}
    (h : ∀ i, i < c → x.get? i = y.get? i) : x.take c = y.take c := by
  apply List.ext_get?
  intro n
  by_cases hn : n < c
  · rw [List.get?_take hn, List.get?_take hn, h n hn]
  · have h1 : (x.take c).get? n = none := by
      rw [List.get?_eq_none]
      simp [List.length_take]
      omega
    have h2 : (y.take c).get? n = none := by
      rw [List.get?_eq_none]
      simp [List.length_take]
      omega
    rw [h1, h2]

/-- `runLen` is at least `k` when the first `k` characters satisfy `p`. -/
theorem runLen_ge_of {p : Char → Bool} {x : List Char} {k : Nat}
    (h : ∀ i, i < k → charAt p x i) : k ≤ runLen p x := by
  induction k generalizing x with
  | zero => omega
  | succ k ih =>
      rcases h 0 (by omega) with ⟨ch, hch, hp⟩
      rcases x with - | ⟨c, r⟩
      · simp at hch
      · simp only [List.get?] at hch
        cases hch
        rw [runLen_cons_pos hp]
        have : k ≤ runLen p r := by
          apply ih
          intro i hi
          rcases h (i+1) (by omega) with ⟨d, hd, hdp⟩
          exact ⟨d, hd, hdp⟩
        omega

/-- `runLen` is exactly `l` when the first `l` characters satisfy `p` and
the character at `l` (if any) does not. -/
theorem runLen_eq_of {p : Char → Bool} {x : List Char} {l : Nat}
    (h : ∀ i, i < l → charAt p x i)
    (hstop : x.get? l = none ∨ ∃ ch, x.get? l = some ch ∧ p ch = false) :
    runLen p x = l := by
  have hge : l ≤ runLen p x := runLen_ge_of h
  rcases Nat.lt_or_ge l (runLen p x) with hlt | hge'
  · exfalso
    rcases runLen_mem hlt with ⟨ch, hch, hp⟩
    rcases hstop with hnone | ⟨d, hd, hdp⟩
    · rw [hch] at hnone; cases hnone
    · rw [hch] at hd
      cases hd
      rw [hp] at hdp
      cases hdp
  · omega

/-! ### Email matcher characterization -/

theorem emailSplitFrom_sound {s : List Char} :
    ∀ {b m : Nat}, emailSplitFrom s b = some m →
      ∃ j, j + 1 ≤ b ∧ s.get? (j + 1) = some '.' ∧
        2 ≤ runLen isLetterCh (s.drop (j + 2)) ∧
        m = j + 2 + runLen isLetterCh (s.drop (j + 2)) := by
  intro b
  induction b with
  | zero => intro m h; simp [emailSplitFrom] at h
  | succ j ih =>
      intro m h
      rw [emailSplitFrom] at h
      split at h
      · rename_i hcond
        cases h
        exact ⟨j, by omega, hcond.1, hcond.2, rfl⟩
      · rcases ih h with ⟨j', h1, h2, h3, h4⟩
        exact ⟨j', by omega, h2, h3, h4⟩

theorem emailSplitFrom_isSome {s : List Char} {j : Nat}
    (hdot : s.get? (j + 1) = some '.')
    (hm : 2 ≤ runLen isLetterCh (s.drop (j + 2))) :
    ∀ {b : Nat}, j + 1 ≤ b → (emailSplitFrom s b).isSome := by
  intro b
  induction b with
  | zero => omega
  | succ k ih =>
      intro hb
      rw [emailSplitFrom]
      split
      · simp
      · rename_i hcond
        rcases Nat.lt_or_ge (j + 1) (k + 1) with hlt | hge
        · exact ih (by omega)
        · have : j = k := by omega
          subst this
          exact absurd ⟨hdot, hm⟩ hcond

/-- Full characterization of a successful email match attempt. -/
theorem emailAt_eq_some {x : List Char} {n : Nat} (h : emailAt x = some n) :
    ∃ l j, l = runLen isLocalCh x ∧ 1 ≤ l ∧ x.get? l = some '@' ∧
      j + 1 ≤ runLen isDomainCh (x.drop (l + 1)) ∧
      x.get? (l + 1 + (j + 1)) = some '.' ∧
      2 ≤ runLen isLetterCh (x.drop (l + 1 + (j + 2))) ∧
      n = l + 1 + (j + 2) + runLen isLetterCh (x.drop (l + 1 + (j + 2))) := by
  simp only [emailAt] at h
  split at h
  · cases h
  · rename_i hl0
    split at h
    · rename_i hsplit heq
      split at h
      · rename_i m hsf
        cases h
        rcases emailSplitFrom_sound hsf with ⟨j, h1, h2, h3, h4⟩
        rw [List.get?_drop] at h2
        rw [List.drop_drop] at h3 h4
        refine ⟨runLen isLocalCh x, j, rfl, by omega, heq, h1, h2, h3, by omega⟩
      · cases h
    · cases h

/-- Sufficient conditions for an email match attempt to succeed. -/
theorem emailAt_isSome {y : List Char} {l j : Nat}
    (hloc : ∀ i, i < l → charAt isLocalCh y i)
    (hl : 1 ≤ l)
    (hat : y.get? l = some '@')
    (hdom : ∀ i, i < j + 1 → charAt isDomainCh (y.drop (l + 1)) i)
    (hdot : y.get? (l + 1 + (j + 1)) = some '.')
    (htld : 2 ≤ runLen isLetterCh (y.drop (l + 1 + (j + 2)))) :
    (emailAt y).isSome := by
  have hrun : runLen isLocalCh y = l := by
    apply runLen_eq_of hloc
    right
    exact ⟨'@', hat, by decide⟩
  have hdot' : (y.drop (l + 1)).get? (j + 1) = some '.' := by
    rw [List.get?_drop]
    exact hdot
  have htld' : 2 ≤ runLen isLetterCh ((y.drop (l + 1)).drop (j + 2)) := by
    rw [List.drop_drop]
    exact htld
  have hb : j + 1 ≤ runLen isDomainCh (y.drop (l + 1)) := runLen_ge_of hdom
  have hsf := emailSplitFrom_isSome hdot' htld' hb
  unfold emailAt
  rw [hrun]
  have hl0 : ¬ l = 0 := by omega
  simp only [hl0, if_false, hat]
  rcases hsome : emailSplitFrom (y.drop (l + 1))
      (runLen isDomainCh (y.drop (l + 1))) with - | m
  · rw [hsome] at hsf; simp at hsf
  · simp

/-- Characters consumed by an email match are email-class characters. -/
theorem emailAt_chars {x : List Char} {n : Nat} (h : emailAt x = some n) :
    ∀ i, i < n → charAt emailClass x i := by
  rcases emailAt_eq_some h with ⟨l, j, hl, hl1, hat, hjb, hdot, htld, hn⟩
  intro i hi
  rcases Nat.lt_or_ge i l with hil | hil
  · rcases runLen_mem (hl ▸ hil) with ⟨ch, hch, hp⟩
    exact ⟨ch, hch, by simp [emailClass, hp]⟩
  rcases Nat.eq_or_lt_of_le hil with rfl | hil'
  · exact ⟨'@', hat, by decide⟩
  rcases Nat.lt_or_ge i (l + 1 + (j + 1)) with hid | hid
  · have hi' : i - (l + 1) < runLen isDomainCh (x.drop (l + 1)) := by omega
    rcases runLen_mem hi' with ⟨ch, hch, hp⟩
    rw [List.get?_drop] at hch
    have harr : l + 1 + (i - (l + 1)) = i := by omega
    rw [harr] at hch
    exact ⟨ch, hch, by simp [emailClass, hp]⟩
  rcases Nat.eq_or_lt_of_le hid with hie | hie
  · exact ⟨'.', by rw [hie] at hdot; exact hdot, by decide⟩
  · have hi' : i - (l + 1 + (j + 2)) <
        runLen isLetterCh (x.drop (l + 1 + (j + 2))) := by omega
    rcases runLen_mem hi' with ⟨ch, hch, hp⟩
    rw [List.get?_drop] at hch
    have harr : l + 1 + (j + 2) + (i - (l + 1 + (j + 2))) = i := by omega
    rw [harr] at hch
    refine ⟨ch, hch, ?_⟩
    have : isDomainCh ch = true := by simp [isDomainCh, hp]
    simp [emailClass, this]

/-- An email match transfers to any text agreeing on its characters. -/
theorem emailAt_transfer {x y : List Char} {n : Nat}
    (h : emailAt x = some n) (hagree : ∀ i, i < n → x.get? i = y.get? i) :
    (emailAt y).isSome := by
  rcases emailAt_eq_some h with ⟨l, j, hl, hl1, hat, hjb, hdot, htld, hn⟩
  have hmm : 2 ≤ runLen isLetterCh (x.drop (l + 1 + (j + 2))) := htld
  apply emailAt_isSome (l := l) (j := j)
  · intro i hi
    rcases runLen_mem (hl ▸ hi) with ⟨ch, hch, hp⟩
    exact ⟨ch, by rw [← hagree i (by omega)]; exact hch, hp⟩
  · exact hl1
  · rw [← hagree l (by omega)]
    exact hat
  · intro i hi
    have hi' : i < runLen isDomainCh (x.drop (l + 1)) := by omega
    rcases runLen_mem hi' with ⟨ch, hch, hp⟩
    rw [List.get?_drop] at hch
    refine ⟨ch, ?_, hp⟩
    rw [List.get?_drop, ← hagree (l + 1 + i) (by omega)]
    exact hch
  · rw [← hagree (l + 1 + (j + 1)) (by omega)]
    exact hdot
  · apply runLen_ge_of
    intro i hi
    have hi' : i < runLen isLetterCh (x.drop (l + 1 + (j + 2))) := by omega
    rcases runLen_mem hi' with ⟨ch, hch, hp⟩
    rw [List.get?_drop] at hch
    refine ⟨ch, ?_, hp⟩
    rw [List.get?_drop, ← hagree (l + 1 + (j + 2) + i) (by omega)]
    exact hch

/-- An email match consumes at least one character. -/
theorem emailAt_pos {x : List Char} {n : Nat} (h : emailAt x = some n) :
    1 ≤ n := by
  rcases emailAt_eq_some h with ⟨l, j, -, hl1, -, -, -, -, hn⟩
  omega

/-- An email match stays inside the text. -/
theorem emailAt_le_length {x : List Char} {n : Nat} (h : emailAt x = some n) :
    n ≤ x.length := by
  rcases emailAt_eq_some h with ⟨l, j, hl, hl1, hat, hjb, hdot, htld, hn⟩
  have h1 : runLen isLetterCh (x.drop (l + 1 + (j + 2))) ≤
      (x.drop (l + 1 + (j + 2))).length := runLen_le_length _ _
  have h2 : l + 1 + (j + 1) < x.length := by
    rcases List.get?_eq_some.1 hdot with ⟨hlt, -⟩
    exact hlt
  simp only [List.length_drop] at h1
  omega

/-! ### Card matcher characterization -/

theorem digit_not_sep {c : Char} (h : isDigitCh c = true) :
    isSepCh c = false := by
  have h' := of_decide_eq_true h
  rcases h' with ⟨h1, h2⟩
  simp only [isSepCh, Bool.or_eq_false_iff, decide_eq_false_iff_not]
  constructor
  · rintro rfl; exact absurd h1 (by decide)
  · rintro rfl; exact absurd h1 (by decide)

theorem digit_word {c : Char} (h : isDigitCh c = true) :
    isWordCh c = true := by
  simp [isWordCh, h]

/-- Prefix of the run consists of `p`-characters. -/
theorem mem_take_runLen {p : Char → Bool} :
    ∀ {l : List Char} {c : Char}, c ∈ l.take (runLen p l) → p c = true := by
  intro l
  induction l with
  | nil => intro c h; simp at h
  | cons a r ih =>
      intro c h
      cases ha : p a with
      | false => rw [runLen_cons_neg ha] at h; simp at h
      | true =>
          rw [runLen_cons_pos ha] at h
          simp only [List.take_cons_succ, List.mem_cons] at h
          rcases h with rfl | h
          · exact ha
          · exact ih h

/-- Unfolding equations for `cardChainAux`. -/
theorem cardChainAux_nil {r : List Char} (acc : Nat)
    (hdrop : r.drop (runLen isSepCh r) = []) : cardChainAux r acc = [] := by
  conv_lhs => unfold cardChainAux
  split
  · rename_i c2 r2 heq
    rw [hdrop] at heq
    cases heq
  · rfl

theorem cardChainAux_cons_digit {r r' : List Char} {c : Char} (acc : Nat)
    (hdrop : r.drop (runLen isSepCh r) = c :: r') (hdig : isDigitCh c = true) :
    cardChainAux r acc =
      (acc + runLen isSepCh r + 1) ::
        cardChainAux r' (acc + runLen isSepCh r + 1) := by
  conv_lhs => unfold cardChainAux
  split
  · rename_i c2 r2 heq
    rw [hdrop] at heq
    cases heq
    simp [hdig]
  · rename_i heq
    rw [hdrop] at heq
    cases heq

theorem cardChainAux_cons_nondigit {r r' : List Char} {c : Char} (acc : Nat)
    (hdrop : r.drop (runLen isSepCh r) = c :: r')
    (hdig : isDigitCh c = false) : cardChainAux r acc = [] := by
  conv_lhs => unfold cardChainAux
  split
  · rename_i c2 r2 heq
    rw [hdrop] at heq
    cases heq
    simp [hdig]
  · rfl

theorem cardChainAux_add :
    ∀ (r : List Char) (acc δ : Nat),
      cardChainAux r (acc + δ) = (cardChainAux r acc).map (· + δ) := by
  intro r acc
  induction r, acc using cardChainAux.induct with
  | case1 r acc c r' hdrop hdig ih =>
      intro δ
      rw [cardChainAux_cons_digit (acc + δ) hdrop hdig,
        cardChainAux_cons_digit acc hdrop hdig]
      simp only [List.map_cons, List.cons.injEq]
      refine ⟨by omega, ?_⟩
      have harr : acc + δ + runLen isSepCh r + 1 =
          acc + runLen isSepCh r + 1 + δ := by omega
      rw [harr, ih]
  | case2 r acc c r' hdrop hdig =>
      intro δ
      rw [cardChainAux_cons_nondigit (acc + δ) hdrop (by simpa using hdig),
        cardChainAux_cons_nondigit acc hdrop (by simpa using hdig)]
      rfl
  | case3 r acc hdrop =>
      intro δ
      rw [cardChainAux_nil (acc + δ) hdrop, cardChainAux_nil acc hdrop]
      rfl

/-- `cardChainAux` in terms of the chain of the text after the leading
separator run. -/
theorem cardChainAux_eq (r : List Char) (acc : Nat) :
    cardChainAux r acc =
      (cardChain (r.drop (runLen isSepCh r))).map
        (· + (acc + runLen isSepCh r)) := by
  rcases hdrop : r.drop (runLen isSepCh r) with - | ⟨c, r'⟩
  · rw [cardChainAux_nil acc hdrop]
    simp [cardChain]
  · cases hdig : isDigitCh c with
    | false =>
        rw [cardChainAux_cons_nondigit acc hdrop hdig]
        simp [cardChain, hdig]
    | true =>
        rw [cardChainAux_cons_digit acc hdrop hdig]
        simp only [cardChain, hdig, if_true, List.map_cons, List.cons.injEq]
        refine ⟨by omega, ?_⟩
        have h1 : acc + runLen isSepCh r + 1 =
            1 + (acc + runLen isSepCh r) := by omega
        rw [h1, cardChainAux_add]

/-- Basic shape facts about a card block. -/
theorem cardBlock_facts {b : List Char} {m : Nat} (h : CardBlock b m) :
    1 ≤ m ∧ m ≤ b.length ∧
    (∃ d r, b = d :: r ∧ isDigitCh d = true) ∧
    (∀ c ∈ b, cardClass c = true) ∧
    (∃ d, b.getLast? = some d ∧ isDigitCh d = true) := by
  induction h with
  | one d hd =>
      exact ⟨by omega, by simp, ⟨d, [], rfl, hd⟩,
        by intro c hc; simp at hc; subst hc; simp [cardClass, hd],
        ⟨d, rfl, hd⟩⟩
  | more d seps b k hd hs hb ih =>
      rcases ih with ⟨h1, h2, ⟨d2, r2, rfl, hd2⟩, h4, ⟨dl, hdl, hdldig⟩⟩
      refine ⟨by omega, ?_, ⟨d, _, rfl, hd⟩, ?_, ⟨dl, ?_, hdldig⟩⟩
      · simp only [List.length_cons, List.length_append] at h2 ⊢
        omega
      · intro c hc
        simp only [List.mem_cons, List.mem_append] at hc
        rcases hc with rfl | hc | hc
        · simp [cardClass, hd]
        · simp [cardClass, hs c hc]
        · exact h4 c (List.mem_cons.2 hc)
      · rw [show d :: (seps ++ d2 :: r2) = (d :: seps) ++ (d2 :: r2) from rfl,
          List.getLast?_append_of_ne_nil _ (by simp)]
        exact hdl

theorem cardChain_cons_digit {c : Char} {r : List Char}
    (hdig : isDigitCh c = true) :
    cardChain (c :: r) = 1 :: cardChainAux r 1 := by
  simp [cardChain, hdig]

/-- A card block at the head of a text produces its chain entry. -/
theorem cardChain_of_block {b : List Char} {m : Nat} (h : CardBlock b m) :
    ∀ rest, (cardChain (b ++ rest)).get? (m - 1) = some b.length := by
  induction h with
  | one d hd =>
      intro rest
      simp [cardChain_cons_digit hd]
  | more d seps b2 k hd hs hb ih =>
      intro rest
      rcases cardBlock_facts hb with ⟨hk1, -, ⟨d2, r2, rfl, hd2⟩, -, -⟩
      have hshape : d :: (seps ++ d2 :: r2) ++ rest =
          d :: (seps ++ ((d2 :: r2) ++ rest)) := by simp
      rw [hshape, cardChain_cons_digit hd]
      have hsep : runLen isSepCh (seps ++ (d2 :: r2 ++ rest)) = seps.length := by
        rw [runLen_append_of_all hs]
        simp [runLen_cons_neg (digit_not_sep hd2)]
      have hdrop : (seps ++ (d2 :: r2 ++ rest)).drop
          (runLen isSepCh (seps ++ (d2 :: r2 ++ rest))) = d2 :: r2 ++ rest := by
        rw [hsep, List.drop_left]
      rw [cardChainAux_eq, hdrop, hsep]
      rcases k with - | k'
      · omega
      · have hIH := ih rest
        simp only [Nat.add_sub_cancel] at hIH ⊢
        simp only [List.get?_cons_succ, List.get?_map]
        rw [hIH]
        simp only [Option.map_some', Option.some.injEq]
        simp only [List.length_cons, List.length_append]
        omega

/-- A chain entry yields a card block prefix. -/
theorem cardChain_elim :
    ∀ (k : Nat) (x : List Char) (c : Nat), (cardChain x).get? k = some c →
      CardBlock (x.take c) (k + 1) ∧ c ≤ x.length := by
  intro k
  induction k with
  | zero =>
      intro x c h
      rcases x with - | ⟨d, r⟩
      · simp [cardChain] at h
      · cases hd : isDigitCh d with
        | false => simp [cardChain, hd] at h
        | true =>
            rw [cardChain_cons_digit hd] at h
            simp only [List.get?_cons_zero, Option.some.injEq] at h
            subst h
            exact ⟨CardBlock.one d hd, by simp⟩
  | succ k ih =>
      intro x c h
      rcases x with - | ⟨d, r⟩
      · simp [cardChain] at h
      · cases hd : isDigitCh d with
        | false => simp [cardChain, hd] at h
        | true =>
            rw [cardChain_cons_digit hd] at h
            simp only [List.get?_cons_succ] at h
            rw [cardChainAux_eq] at h
            simp only [List.get?_map] at h
            rcases hch : (cardChain (r.drop (runLen isSepCh r))).get? k with
              - | c'
            · rw [hch] at h; cases h
            · rw [hch] at h
              simp only [Option.map_some', Option.some.injEq] at h
              rcases ih _ _ hch with ⟨hblock, hlen⟩
              have hsep : ∀ ch ∈ r.take (runLen isSepCh r),
                  isSepCh ch = true := fun ch hc => mem_take_runLen hc
              have hc1 : 1 ≤ c' := by
                rcases cardBlock_facts hblock with ⟨-, -, ⟨dd, rr, heq, -⟩, -, -⟩
                rcases Nat.eq_zero_or_pos c' with rfl | hpos
                · simp at heq
                · exact hpos
              constructor
              · have htake : (d :: r).take c =
                    d :: (r.take (runLen isSepCh r) ++
                      (r.drop (runLen isSepCh r)).take c') := by
                  have hc : c = (runLen isSepCh r + c') + 1 := by omega
                  rw [hc]
                  simp only [List.take_cons_succ, List.cons.injEq, true_and]
                  exact List.take_add ..
                rw [htake]
                exact CardBlock.more d _ _ (k + 1) hd hsep hblock
              · have hs_le : runLen isSepCh r ≤ r.length :=
                  runLen_le_length _ _
                simp only [List.length_drop] at hlen
                simp only [List.length_cons]
                omega

theorem bAfter_congr {x y : List Char} {i : Nat} (h : x.get? i = y.get? i) :
    bAfter x i = bAfter y i := by
  unfold bAfter
  rw [h]

theorem cardTryN_sound {s : List Char} {cs : List Nat} :
    ∀ {b n : Nat}, cardTryN s cs b = some n →
      ∃ k, k < b ∧ 13 ≤ k + 1 ∧ cs.get? k = some n ∧ bAfter s n = true := by
  intro b
  induction b with
  | zero => intro n h; simp [cardTryN] at h
  | succ b ih =>
      intro n h
      rw [cardTryN] at h
      by_cases h13 : 13 ≤ b + 1
      · rw [if_pos h13] at h
        rcases hget : cs.get? b with - | c
        · simp only [hget] at h
          rcases ih h with ⟨k, hk, hk13, hkg, hkb⟩
          exact ⟨k, by omega, hk13, hkg, hkb⟩
        · simp only [hget] at h
          by_cases hbc : bAfter s c = true
          · rw [if_pos hbc] at h
            cases h
            exact ⟨b, by omega, h13, hget, hbc⟩
          · rw [if_neg hbc] at h
            rcases ih h with ⟨k, hk, hk13, hkg, hkb⟩
            exact ⟨k, by omega, hk13, hkg, hkb⟩
      · rw [if_neg h13] at h
        cases h

theorem cardTryN_isSome {s : List Char} {cs : List Nat} {k c : Nat}
    (h13 : 13 ≤ k + 1) (hget : cs.get? k = some c)
    (hb : bAfter s c = true) :
    ∀ {b : Nat}, k < b → (cardTryN s cs b).isSome := by
  intro b
  induction b with
  | zero => omega
  | succ b ih =>
      intro hkb
      rw [cardTryN]
      have h13b : 13 ≤ b + 1 := by omega
      rw [if_pos h13b]
      rcases hgb : cs.get? b with - | c'
      · simp only [hgb]
        rcases Nat.lt_or_ge k b with hlt | hge
        · exact ih hlt
        · have : k = b := by omega
          subst this
          rw [hget] at hgb
          cases hgb
      · simp only [hgb]
        rcases Nat.lt_or_ge k b with hlt | hge
        · by_cases hbc : bAfter s c' = true
          · rw [if_pos hbc]
            simp
          · rw [if_neg hbc]
            exact ih hlt
        · have : k = b := by omega
          subst this
          rw [hget] at hgb
          cases hgb
          rw [if_pos hb]
          simp
/-- Full characterization of a successful card match attempt. -/
theorem cardAt_eq_some {p : Option Char} {x : List Char} {n : Nat}
    (h : cardAt p x = some n) :
    isWordOpt p = false ∧ ∃ k, 13 ≤ k + 1 ∧ k + 1 ≤ 19 ∧
      (cardChain x).get? k = some n ∧ bAfter x n = true := by
  by_cases hw : isWordOpt p = true
  · simp [cardAt, hw] at h
  · have hw' : isWordOpt p = false := by simpa using hw
    simp only [cardAt, hw', Bool.false_eq_true, if_false] at h
    rcases cardTryN_sound h with ⟨k, hk, h13, hget, hb⟩
    refine ⟨hw', k, h13, by omega, hget, hb⟩

/-- Sufficient conditions for a card match attempt to succeed. -/
theorem cardAt_isSome {q : Option Char} {y : List Char} {k c : Nat}
    (hw : isWordOpt q = false) (h13 : 13 ≤ k + 1) (h19 : k + 1 ≤ 19)
    (hget : (cardChain y).get? k = some c) (hb : bAfter y c = true) :
    (cardAt q y).isSome := by
  simp only [cardAt, hw, Bool.false_eq_true, if_false]
  apply cardTryN_isSome h13 hget hb
  have hklen : k < (cardChain y).length := by
    rcases List.get?_eq_some.1 hget with ⟨hlt, -⟩
    exact hlt
  omega

/-- Structure facts of a successful card match. -/
theorem cardAt_facts {p : Option Char} {x : List Char} {n : Nat}
    (h : cardAt p x = some n) :
    (∀ i, i < n → charAt cardClass x i) ∧ charAt isDigitCh x 0 ∧
      charAt isDigitCh x (n - 1) ∧ 1 ≤ n ∧ n ≤ x.length := by
  rcases cardAt_eq_some h with ⟨hw, k, h13, h19, hget, hb⟩
  rcases cardChain_elim k x n hget with ⟨hblock, hlen⟩
  rcases cardBlock_facts hblock with
    ⟨-, hmlen, ⟨dd, rr, hcons, hdd⟩, hclass, ⟨dl, hdl, hdldig⟩⟩
  have hn1 : 1 ≤ n := by
    have : (x.take n).length = n := by simp [List.length_take]; omega
    rw [hcons] at this
    simp at this
    omega
  have htlen : (x.take n).length = n := by simp [List.length_take]; omega
  refine ⟨?_, ?_, ?_, hn1, hlen⟩
  · intro i hi
    have hget' : (x.take n).get? i = x.get? i := List.get?_take hi
    rcases hx : x.get? i with - | ch
    · rcases List.get?_eq_none.1 hx with hlen'
      omega
    · refine ⟨ch, hx, ?_⟩
      apply hclass
      apply List.get?_mem
      rw [hget', hx]
  · have h0 : (x.take n).get? 0 = some dd := by rw [hcons]; rfl
    rw [List.get?_take hn1] at h0
    exact ⟨dd, h0, hdd⟩
  · have hl : (x.take n).getLast? = (x.take n).get? (n - 1) := by
      rw [List.getLast?_eq_get?, htlen]
    rw [hl, List.get?_take (by omega)] at hdl
    exact ⟨dl, hdl, hdldig⟩

/-- A card match transfers to any text agreeing on its characters and the
boundary character after them, at any position whose preceding character
is non-word. -/
theorem cardAt_transfer {p q : Option Char} {x y : List Char} {n : Nat}
    (h : cardAt p x = some n)
    (hagree : ∀ i, i ≤ n → x.get? i = y.get? i)
    (hq : isWordOpt q = false) : (cardAt q y).isSome := by
  rcases cardAt_eq_some h with ⟨hw, k, h13, h19, hget, hb⟩
  rcases cardChain_elim k x n hget with ⟨hblock, hlen⟩
  rcases cardAt_facts h with ⟨-, -, ⟨dl, hdl, hdldig⟩, hn1, -⟩
  have htake : x.take n = y.take n :=
    take_eq_of_agree (fun i hi => hagree i (by omega))
  have hylen : n ≤ y.length := by
    have hy : y.get? (n - 1) = some dl := by
      rw [← hagree (n - 1) (by omega)]
      exact hdl
    rcases List.get?_eq_some.1 hy with ⟨hlt, -⟩
    omega
  have hblocky : CardBlock (y.take n) (k + 1) := htake ▸ hblock
  have hchainy : (cardChain y).get? k = some n := by
    have hc := cardChain_of_block hblocky (y.drop n)
    rw [List.take_append_drop] at hc
    simp only [Nat.add_sub_cancel] at hc
    rw [hc]
    simp [List.length_take]
    omega
  have hby : bAfter y n = true := by
    rw [← bAfter_congr (hagree n le_rfl)]
    exact hb
  exact cardAt_isSome hq h13 h19 hchainy hby

/-! ### SSN matcher characterization -/

theorem append_eq_append_split {α : Type} {G u A t : List α}
    (h : G ++ u = A ++ t) (hlen : A.length ≤ G.length) :
    ∃ G', G = A ++ G' ∧ G' ++ u = t := by
  induction A generalizing G with
  | nil => exact ⟨G, by simp, by simpa using h⟩
  | cons a A ih =>
      rcases G with - | ⟨g, G1⟩
      · simp at hlen
      · simp only [List.cons_append, List.cons.injEq] at h
        rcases h with ⟨rfl, h2⟩
        rcases ih h2 (by simp at hlen ⊢; omega) with ⟨G', hG, ht⟩
        exact ⟨G', by simp [hG], ht⟩

theorem ssnShape1_elim {x : List Char} (h : ssnShape1 x = true) :
    ∃ d1 d2 d3 d4 d5 d6 d7 d8 d9 t,
      x = d1 :: d2 :: d3 :: '-' :: d4 :: d5 :: '-' ::
        d6 :: d7 :: d8 :: d9 :: t ∧
      isDigitCh d1 = true ∧ isDigitCh d2 = true ∧ isDigitCh d3 = true ∧
      isDigitCh d4 = true ∧ isDigitCh d5 = true ∧ isDigitCh d6 = true ∧
      isDigitCh d7 = true ∧ isDigitCh d8 = true ∧ isDigitCh d9 = true := by
  rcases x with - | ⟨a, - | ⟨b, - | ⟨c, - | ⟨d, - | ⟨e, - | ⟨f, - | ⟨g, - |
    ⟨h1, - | ⟨i1, - | ⟨j1, - | ⟨k1, t⟩⟩⟩⟩⟩⟩⟩⟩⟩⟩⟩ <;>
    simp only [ssnShape1, Bool.and_eq_true, decide_eq_true_eq] at h <;>
    try exact absurd h (by decide)
  obtain ⟨⟨⟨⟨⟨⟨⟨⟨⟨⟨ha, hb⟩, hc⟩, hd⟩, he⟩, hf⟩, hg⟩, hh⟩, hi⟩, hj⟩, hk⟩ := h
  subst hd; subst hg
  exact ⟨a, b, c, e, f, h1, i1, j1, k1, t, rfl,
    ha, hb, hc, he, hf, hh, hi, hj, hk⟩

theorem ssnShape1_intro {d1 d2 d3 d4 d5 d6 d7 d8 d9 : Char} {t : List Char}
    (h1 : isDigitCh d1 = true) (h2 : isDigitCh d2 = true)
    (h3 : isDigitCh d3 = true) (h4 : isDigitCh d4 = true)
    (h5 : isDigitCh d5 = true) (h6 : isDigitCh d6 = true)
    (h7 : isDigitCh d7 = true) (h8 : isDigitCh d8 = true)
    (h9 : isDigitCh d9 = true) :
    ssnShape1 (d1 :: d2 :: d3 :: '-' :: d4 :: d5 :: '-' ::
      d6 :: d7 :: d8 :: d9 :: t) = true := by
  simp [ssnShape1, h1, h2, h3, h4, h5, h6, h7, h8, h9]

/-- Characterization of a successful SSN match attempt. -/
theorem ssnAt_eq_some {p : Option Char} {x : List Char} {n : Nat}
    (h : ssnAt p x = some n) :
    isWordOpt p = false ∧
      ((n = 11 ∧ ssnShape1 x = true ∧ bAfter x 11 = true) ∨
       (n = 9 ∧ ssnShape2 x = true ∧ bAfter x 9 = true)) := by
  unfold ssnAt at h
  by_cases hw : isWordOpt p = true
  · rw [if_pos hw] at h; cases h
  · have hw' : isWordOpt p = false := by simpa using hw
    rw [if_neg (by simp [hw'])] at h
    by_cases h1 : ssnShape1 x = true ∧ bAfter x 11 = true
    · rw [if_pos (by simp [h1.1, h1.2])] at h
      cases h
      exact ⟨hw', Or.inl ⟨rfl, h1⟩⟩
    · rw [if_neg (by simpa using h1)] at h
      by_cases h2 : ssnShape2 x = true ∧ bAfter x 9 = true
      · rw [if_pos (by simp [h2.1, h2.2])] at h
        cases h
        exact ⟨hw', Or.inr ⟨rfl, h2⟩⟩
      · rw [if_neg (by simpa using h2)] at h
        cases h

/-- Sufficient conditions for an SSN match attempt to succeed. -/
theorem ssnAt_isSome {q : Option Char} {y : List Char}
    (hw : isWordOpt q = false)
    (h : (ssnShape1 y = true ∧ bAfter y 11 = true) ∨
         (ssnShape2 y = true ∧ bAfter y 9 = true)) :
    (ssnAt q y).isSome := by
  unfold ssnAt
  rw [if_neg (by simp [hw])]
  by_cases h1 : ssnShape1 y = true ∧ bAfter y 11 = true
  · rw [if_pos (by simp [h1.1, h1.2])]
    simp
  · rw [if_neg (by simpa using h1)]
    rcases h with h | h2
    · exact absurd h h1
    · rw [if_pos (by simp [h2.1, h2.2])]
      simp

/-- Structure facts of a successful SSN match. -/
theorem ssnAt_facts {p : Option Char} {x : List Char} {n : Nat}
    (h : ssnAt p x = some n) :
    (∀ i, i < n → charAt cardClass x i) ∧ charAt isDigitCh x 0 ∧
      charAt isDigitCh x (n - 1) ∧ 1 ≤ n ∧ n ≤ x.length ∧
      bAfter x n = true := by
  rcases ssnAt_eq_some h with ⟨hw, hcase | hcase⟩
  · rcases hcase with ⟨rfl, hs, hb⟩
    rcases ssnShape1_elim hs with
      ⟨d1, d2, d3, d4, d5, d6, d7, d8, d9, t, rfl, h1, h2, h3, h4, h5, h6,
        h7, h8, h9⟩
    refine ⟨?_, ⟨d1, rfl, h1⟩, ⟨d9, rfl, h9⟩, by omega, by simp, hb⟩
    intro i hi
    interval_cases i
    · exact ⟨d1, rfl, by simp [cardClass, h1]⟩
    · exact ⟨d2, rfl, by simp [cardClass, h2]⟩
    · exact ⟨d3, rfl, by simp [cardClass, h3]⟩
    · exact ⟨'-', rfl, by decide⟩
    · exact ⟨d4, rfl, by simp [cardClass, h4]⟩
    · exact ⟨d5, rfl, by simp [cardClass, h5]⟩
    · exact ⟨'-', rfl, by decide⟩
    · exact ⟨d6, rfl, by simp [cardClass, h6]⟩
    · exact ⟨d7, rfl, by simp [cardClass, h7]⟩
    · exact ⟨d8, rfl, by simp [cardClass, h8]⟩
    · exact ⟨d9, rfl, by simp [cardClass, h9]⟩
  · rcases hcase with ⟨rfl, hs, hb⟩
    have hs' : 9 ≤ runLen isDigitCh x := by
      simpa [ssnShape2, decide_eq_true_eq] using hs
    have hdig : ∀ i, i < 9 → charAt isDigitCh x i := by
      intro i hi
      exact runLen_mem (by omega)
    have hlen : 9 ≤ x.length := by
      have := runLen_le_length isDigitCh x
      omega
    refine ⟨?_, hdig 0 (by omega), hdig 8 (by omega), by omega, hlen, hb⟩
    intro i hi
    rcases hdig i (by omega) with ⟨ch, hch, hchd⟩
    exact ⟨ch, hch, by simp [cardClass, hchd]⟩

/-- An SSN match transfers along a shared prefix covering the match, given
the boundary on the target side. -/
theorem ssnAt_transfer {p q : Option Char} {G u v : List Char} {n : Nat}
    (h : ssnAt p (G ++ u) = some n) (hn : n ≤ G.length)
    (hby : bAfter (G ++ v) n = true) (hq : isWordOpt q = false) :
    (ssnAt q (G ++ v)).isSome := by
  rcases ssnAt_eq_some h with ⟨hw, hcase | hcase⟩
  · rcases hcase with ⟨rfl, hs, hb⟩
    rcases ssnShape1_elim hs with
      ⟨d1, d2, d3, d4, d5, d6, d7, d8, d9, t, heq, h1, h2, h3, h4, h5, h6,
        h7, h8, h9⟩
    have hsplit := append_eq_append_split
      (A := [d1, d2, d3, '-', d4, d5, '-', d6, d7, d8, d9]) (t := t)
      (by simpa using heq) (by simpa using hn)
    rcases hsplit with ⟨G2, rfl, -⟩
    apply ssnAt_isSome hq
    left
    constructor
    · have : ([d1, d2, d3, '-', d4, d5, '-', d6, d7, d8, d9] ++ G2) ++ v =
          d1 :: d2 :: d3 :: '-' :: d4 :: d5 :: '-' ::
            d6 :: d7 :: d8 :: d9 :: (G2 ++ v) := by simp
      rw [this]
      exact ssnShape1_intro h1 h2 h3 h4 h5 h6 h7 h8 h9
    · exact hby
  · rcases hcase with ⟨rfl, hs, hb⟩
    have hs' : 9 ≤ runLen isDigitCh (G ++ u) := by
      simpa [ssnShape2, decide_eq_true_eq] using hs
    apply ssnAt_isSome hq
    right
    refine ⟨?_, hby⟩
    have hdig : ∀ i, i < 9 → charAt isDigitCh (G ++ v) i := by
      intro i hi
      rcases runLen_mem (p := isDigitCh) (l := G ++ u) (i := i) (by omega)
        with ⟨ch, hch, hchd⟩
      rw [List.get?_append (by omega)] at hch
      refine ⟨ch, ?_, hchd⟩
      rw [List.get?_append (by omega)]
      exact hch
    simp only [ssnShape2, decide_eq_true_eq]
    exact runLen_ge_of hdig

/-! ### Failure lemmas and placeholder skipping -/

theorem cardAt_none_head {p : Option Char} {c : Char} {r : List Char}
    (hc : isDigitCh c = false) : cardAt p (c :: r) = none := by
  unfold cardAt
  by_cases hw : isWordOpt p = true
  · rw [if_pos hw]
  · rw [if_neg hw]
    have hchain : cardChain (c :: r) = [] := by simp [cardChain, hc]
    rw [hchain]
    rfl

theorem ssnShape1_false_head {c : Char} {r : List Char}
    (hc : isDigitCh c = false) : ssnShape1 (c :: r) = false := by
  by_cases h : ssnShape1 (c :: r) = true
  · rcases ssnShape1_elim h with ⟨d1, d2, d3, d4, d5, d6, d7, d8, d9, t,
      heq, h1, -⟩
    simp only [List.cons.injEq] at heq
    rw [heq.1] at hc
    rw [h1] at hc
    cases hc
  · simpa using h

theorem ssnAt_none_head {p : Option Char} {c : Char} {r : List Char}
    (hc : isDigitCh c = false) : ssnAt p (c :: r) = none := by
  unfold ssnAt
  by_cases hw : isWordOpt p = true
  · rw [if_pos hw]
  · rw [if_neg hw]
    rw [if_neg (by simp [ssnShape1_false_head hc])]
    rw [if_neg ?_]
    simp only [ssnShape2, runLen_cons_neg hc, Bool.and_eq_true,
      decide_eq_true_eq, not_and]
    intro h9
    omega

theorem emailAt_none_blocked {u tail : List Char}
    (hat : ∀ ch ∈ u, ch ≠ '@')
    (hbreak : ∃ ch ∈ u, isLocalCh ch = false) :
    emailAt (u ++ tail) = none := by
  have hrun := runLen_append_of_break hbreak tail
  unfold emailAt
  by_cases hz : runLen isLocalCh (u ++ tail) = 0
  · rw [if_pos hz]
  · rw [if_neg hz]
    rcases hgl : u.get? (runLen isLocalCh (u ++ tail)) with - | ch
    · rw [hrun.1] at hgl
      have := List.get?_eq_none.1 hgl
      omega
    · have hg2 : (u ++ tail).get? (runLen isLocalCh (u ++ tail)) = some ch := by
        rw [List.get?_append (by rw [hrun.1]; exact hrun.2)]
        exact hgl
      rw [hg2]
      have hne : ch ≠ '@' := hat ch (List.get?_mem hgl)
      split
      · rename_i heq
        simp only [Option.some.injEq] at heq
        exact absurd heq hne
      · rfl

theorem prevAfter_cons (prev : Option Char) (c : Char) (u : List Char) :
    prevAfter prev (c :: u) = prevAfter (some c) u := by
  rcases u with - | ⟨a, u2⟩
  · rfl
  · unfold prevAfter
    rw [show (c :: a :: u2).getLast? = (a :: u2).getLast? from
      List.getLast?_append_of_ne_nil [c] (by simp)]
    rcases hl : (a :: u2).getLast? with - | d
    · rw [List.getLast?_eq_get?] at hl
      have hle := List.get?_eq_none.1 hl
      simp at hle
    · rfl

/-- A run of positions that can never start a match is skipped by the
match search. -/
theorem existsMatch_skip {M : Option Char → List Char → Option Nat} :
    ∀ (u : List Char) (prev : Option Char) (tail : List Char),
      (∀ (p : Option Char) (v : List Char), v <:+ u → v ≠ [] →
        M p (v ++ tail) = none) →
      existsMatch M prev (u ++ tail) = existsMatch M (prevAfter prev u) tail := by
  intro u
  induction u with
  | nil => intro prev tail _; simp [prevAfter]
  | cons c u ih =>
      intro prev tail hfail
      have hhead : M prev ((c :: u) ++ tail) = none :=
        hfail prev (c :: u) (List.suffix_refl _) (by simp)
      simp only [List.cons_append] at hhead
      rw [List.cons_append, existsMatch, hhead]
      simp only [Option.isSome_none, Bool.false_or]
      rw [ih (some c) tail ?_, prevAfter_cons]
      intro p v hv hvne
      exact hfail p v (hv.trans (List.suffix_cons c u)) hvne

/-! ### Propagation of match absence and placeholder skipping -/

theorem existsMatch_append_false {M : Option Char → List Char → Option Nat} :
    ∀ (u : List Char) (prev : Option Char) (v : List Char),
      existsMatch M prev (u ++ v) = false →
      existsMatch M (prevAfter prev u) v = false := by
  intro u
  induction u with
  | nil => intro prev v h; simpa [prevAfter] using h
  | cons c u ih =>
      intro prev v h
      rw [List.cons_append, existsMatch] at h
      rw [prevAfter_cons]
      exact ih (some c) v (by
        rcases ht : existsMatch M (some c) (u ++ v) with - | -
        · rfl
        · rw [ht] at h; simp at h)

theorem existsMatch_email_prev (l : List Char) (p q : Option Char) :
    existsMatch emailM p l = existsMatch emailM q l := by
  cases l with
  | nil => rfl
  | cons c r => rfl

theorem cardAt_none_word {p : Option Char} (hw : isWordOpt p = true)
    (x : List Char) : cardAt p x = none := by
  unfold cardAt
  rw [if_pos hw]

theorem cardAt_congr_prev {p q : Option Char} (h : isWordOpt p = isWordOpt q)
    (x : List Char) : cardAt p x = cardAt q x := by
  unfold cardAt
  rw [h]

theorem ssnAt_congr_prev {p q : Option Char} (h : isWordOpt p = isWordOpt q)
    (x : List Char) : ssnAt p x = ssnAt q x := by
  unfold ssnAt
  rw [h]

theorem prevAfter_getLast (c : Char) (g : List Char) :
    prevAfter (some c) g = (c :: g).getLast? := by
  cases g with
  | nil => simp [prevAfter]
  | cons a g2 =>
      have h1 : (c :: a :: g2).getLast? = (a :: g2).getLast? :=
        List.getLast?_append_of_ne_nil [c] (by simp)
      rw [h1]
      unfold prevAfter
      rcases hg : (a :: g2).getLast? with - | d
      · rw [List.getLast?_eq_get?] at hg
        have := List.get?_eq_none.1 hg
        simp at this
      · rfl

theorem prevAfter_of_getLast {ph : List Char} {d : Char}
    (h : ph.getLast? = some d) (prev : Option Char) :
    prevAfter prev ph = some d := by
  unfold prevAfter
  rw [h]

theorem existsMatch_card_skip {ph : List Char}
    (hph : ∀ ch ∈ ph, isDigitCh ch = false) (prev : Option Char)
    (tail : List Char) :
    existsMatch cardAt prev (ph ++ tail) =
      existsMatch cardAt (prevAfter prev ph) tail := by
  apply existsMatch_skip
  intro p v hv hvne
  rcases v with - | ⟨c, v'⟩
  · exact absurd rfl hvne
  · rw [List.cons_append]
    exact cardAt_none_head (hph c (hv.subset (List.mem_cons_self c v')))

theorem existsMatch_ssn_skip {ph : List Char}
    (hph : ∀ ch ∈ ph, isDigitCh ch = false) (prev : Option Char)
    (tail : List Char) :
    existsMatch ssnAt prev (ph ++ tail) =
      existsMatch ssnAt (prevAfter prev ph) tail := by
  apply existsMatch_skip
  intro p v hv hvne
  rcases v with - | ⟨c, v'⟩
  · exact absurd rfl hvne
  · rw [List.cons_append]
    exact ssnAt_none_head (hph c (hv.subset (List.mem_cons_self c v')))

theorem existsMatch_email_skip {ph : List Char}
    (hat : ∀ ch ∈ ph, ch ≠ '@') (hlast : ph.getLast? = some '>')
    (prev : Option Char) (tail : List Char) :
    existsMatch emailM prev (ph ++ tail) =
      existsMatch emailM (prevAfter prev ph) tail := by
  apply existsMatch_skip
  intro p v hv hvne
  show emailAt (v ++ tail) = none
  have hvlast : v.getLast? = some '>' := by
    rcases hv with ⟨w, hw⟩
    rw [← hw, List.getLast?_append_of_ne_nil w hvne] at hlast
    exact hlast
  have hmem : '>' ∈ v := by
    rcases v with - | ⟨c, v'⟩
    · exact absurd rfl hvne
    · rw [List.getLast?_eq_get?] at hvlast
      exact List.get?_mem hvlast
  apply emailAt_none_blocked
  · intro ch hch
    exact hat ch (hv.subset hch)
  · exact ⟨'>', hmem, by decide⟩

/-- Decomposition of a scan: either nothing matched and the render is the
input, or the input splits into a gap prefix, a first match and a rest,
with the render splitting accordingly. -/
theorem scanChunks_agree (M : Option Char → List Char → Option Nat)
    (ph : List Char)
    (hlen : ∀ (p : Option Char) (x : List Char) (n : Nat),
      M p x = some n → n ≤ x.length) :
    ∀ (prev : Option Char) (l : List Char),
      renderPh ph (scanChunks M prev l) = l ∨
      ∃ g m l₂, l = g ++ (m ++ l₂) ∧ m ≠ [] ∧
        M (prevAfter prev g) (m ++ l₂) = some m.length ∧
        renderPh ph (scanChunks M prev l) =
          g ++ (ph ++ renderPh ph (scanChunks M m.getLast? l₂)) := by
  intro prev l
  induction prev, l using scanChunks.induct M with
  | case1 prev => left; simp [scanChunks, renderPh]
  | case2 prev c r n hm ih =>
      right
      refine ⟨[], (c :: r).take (n + 1), (c :: r).drop (n + 1), ?_, ?_, ?_, ?_⟩
      · rw [List.nil_append, List.take_append_drop]
      · simp [List.take_succ_cons]
      · have hle : n + 1 ≤ (c :: r).length := hlen _ _ _ hm
        have hmm : ((c :: r).take (n + 1)) ++ ((c :: r).drop (n + 1)) =
            c :: r := List.take_append_drop _ _
        have hml : ((c :: r).take (n + 1)).length = n + 1 := by
          rw [List.length_take]; omega
        rw [hmm, hml]
        have hpa : prevAfter prev ([] : List Char) = prev := rfl
        rw [hpa]
        exact hm
      · rw [scanChunks]
        simp only [hm]
        rw [renderPh, List.nil_append]
  | case3 prev c r hnm ih =>
      have hout : scanChunks M prev (c :: r) =
          .gap c :: scanChunks M (some c) r := by
        rw [scanChunks]
        rcases hM : M prev (c :: r) with - | n
        · rfl
        · cases n with
          | zero => rfl
          | succ n => exact absurd hM (by intro h; exact hnm n h)
      rcases ih with hid | ⟨g, m, l₂, hsplit, hmne, hmatch, hrender⟩
      · left
        rw [hout, renderPh, hid]
      · right
        refine ⟨c :: g, m, l₂, ?_, hmne, ?_, ?_⟩
        · rw [List.cons_append, hsplit]
        · rw [prevAfter_cons]; exact hmatch
        · rw [hout, renderPh, hrender, List.cons_append]

/-! ### Gap-position helpers for the output invariant -/

theorem scanChunks_gap {M : Option Char → List Char → Option Nat}
    {prev : Option Char} {c : Char} {r : List Char}
    (h : M prev (c :: r) = none) :
    scanChunks M prev (c :: r) = .gap c :: scanChunks M (some c) r := by
  rw [scanChunks]
  simp only [h]

theorem scanChunks_hit {M : Option Char → List Char → Option Nat}
    {prev : Option Char} {c : Char} {r : List Char} {n : Nat}
    (h : M prev (c :: r) = some (n + 1)) :
    scanChunks M prev (c :: r) =
      .hit ((c :: r).take (n + 1)) ::
        scanChunks M (((c :: r).take (n + 1)).getLast?)
          ((c :: r).drop (n + 1)) := by
  rw [scanChunks]
  simp only [h]

theorem bAfter_drop_head {x : List Char} {n : Nat}
    (hb : bAfter x n = true) :
    x.drop n = [] ∨ ∃ d r', x.drop n = d :: r' ∧ isWordCh d = false := by
  rcases hd : x.drop n with - | ⟨d, r'⟩
  · left; rfl
  · right
    refine ⟨d, r', rfl, ?_⟩
    have h0 : (x.drop n).get? 0 = some d := by rw [hd]; rfl
    rw [List.get?_drop] at h0
    unfold bAfter at hb
    rw [show n + 0 = n from rfl] at h0
    rw [h0] at hb
    simpa [isWordOpt] using hb

theorem word_not_digit {c : Char} (h : isWordCh c = false) :
    isDigitCh c = false := by
  by_cases hd : isDigitCh c = true
  · rw [digit_word hd] at h; cases h
  · simpa using hd

theorem ssnAt_none_word {p : Option Char} (hw : isWordOpt p = true)
    (x : List Char) : ssnAt p x = none := by
  unfold ssnAt
  rw [if_pos hw]

/-- No email match can start at a gap character of a rendered scan when
none started there in the original text: the match would have to stay
inside the common gap prefix (the placeholder starts with `<`, outside
every character class), and then it transfers back. -/
theorem emailAt_gap_none (M : Option Char → List Char → Option Nat)
    (hlen : ∀ (p : Option Char) (x : List Char) (n : Nat),
      M p x = some n → n ≤ x.length)
    {ph : List Char} (h0 : ph.get? 0 = some '<')
    {c : Char} {r : List Char} (hM : emailAt (c :: r) = none) :
    emailAt (c :: renderPh ph (scanChunks M (some c) r)) = none := by
  rcases hm0 : emailAt (c :: renderPh ph (scanChunks M (some c) r)) with - | n
  · rfl
  exfalso
  rcases scanChunks_agree M ph hlen (some c) r with hid |
    ⟨g, m, l₂, hsplit, hmne, hmatch, hrender⟩
  · rw [hid, hM] at hm0
    cases hm0
  · rw [hrender, ← List.cons_append] at hm0
    have hGlen : n ≤ (c :: g).length := by
      by_contra hgt
      push_neg at hgt
      rcases emailAt_chars hm0 (c :: g).length hgt with ⟨ch, hch, hchc⟩
      rw [List.get?_append_right le_rfl, Nat.sub_self] at hch
      have hplen : 0 < ph.length := by
        rcases List.get?_eq_some.1 h0 with ⟨hl, -⟩
        omega
      rw [List.get?_append hplen, h0] at hch
      injection hch with he
      subst he
      exact absurd hchc (by decide)
    have hagree : ∀ i, i < n →
        ((c :: g) ++ (ph ++ renderPh ph (scanChunks M m.getLast? l₂))).get? i =
          ((c :: g) ++ (m ++ l₂)).get? i := by
      intro i hi
      have hiG : i < (c :: g).length := by omega
      rw [List.get?_append hiG, List.get?_append hiG]
    have hsome := emailAt_transfer hm0 hagree
    rw [List.cons_append, ← hsplit, hM] at hsome
    simp at hsome

/-- No card match can start at a gap character of a rendered scan when
none started there in the original text, given that the underlying scan's
matches start after a non-word character. -/
theorem cardAt_gap_none (M : Option Char → List Char → Option Nat)
    (hlen : ∀ (p : Option Char) (x : List Char) (n : Nat),
      M p x = some n → n ≤ x.length)
    (hwd : ∀ (p : Option Char) (x : List Char) (n : Nat),
      M p x = some n → isWordOpt p = false)
    {ph : List Char} (h0 : ph.get? 0 = some '<')
    {p : Option Char} {c : Char} {r : List Char}
    (hM : cardAt p (c :: r) = none) :
    cardAt p (c :: renderPh ph (scanChunks M (some c) r)) = none := by
  rcases hm0 : cardAt p (c :: renderPh ph (scanChunks M (some c) r)) with - | n
  · rfl
  exfalso
  rcases scanChunks_agree M ph hlen (some c) r with hid |
    ⟨g, m, l₂, hsplit, hmne, hmatch, hrender⟩
  · rw [hid, hM] at hm0
    cases hm0
  · rw [hrender, ← List.cons_append] at hm0
    rcases cardAt_facts hm0 with ⟨hcls, -, ⟨d, hd, hdd⟩, hn1, -⟩
    have hGlen : n ≤ (c :: g).length := by
      by_contra hgt
      push_neg at hgt
      rcases hcls (c :: g).length hgt with ⟨ch, hch, hchc⟩
      rw [List.get?_append_right le_rfl, Nat.sub_self] at hch
      have hplen : 0 < ph.length := by
        rcases List.get?_eq_some.1 h0 with ⟨hl, -⟩
        omega
      rw [List.get?_append hplen, h0] at hch
      injection hch with he
      subst he
      exact absurd hchc (by decide)
    rcases Nat.eq_or_lt_of_le hGlen with heq | hlt
    · have hn1' : n - 1 < (c :: g).length := by omega
      rw [List.get?_append hn1'] at hd
      have hwdm := hwd _ _ _ hmatch
      rw [prevAfter_getLast] at hwdm
      rw [List.getLast?_eq_get?] at hwdm
      rw [show (c :: g).length - 1 = n - 1 by omega] at hwdm
      rw [hd] at hwdm
      rw [show isWordOpt (some d) = isWordCh d from rfl, digit_word hdd]
        at hwdm
      cases hwdm
    · have hq : isWordOpt p = false := (cardAt_eq_some hm0).1
      have hagree : ∀ i, i ≤ n →
          ((c :: g) ++ (ph ++ renderPh ph (scanChunks M m.getLast? l₂))).get? i =
            ((c :: g) ++ (m ++ l₂)).get? i := by
        intro i hi
        have hiG : i < (c :: g).length := by omega
        rw [List.get?_append hiG, List.get?_append hiG]
      have hsome := cardAt_transfer hm0 hagree hq
      rw [List.cons_append, ← hsplit, hM] at hsome
      simp at hsome

/-- No SSN match can start at a gap character of a rendered scan when
none started there in the original text. -/
theorem ssnAt_gap_none (M : Option Char → List Char → Option Nat)
    (hlen : ∀ (p : Option Char) (x : List Char) (n : Nat),
      M p x = some n → n ≤ x.length)
    (hwd : ∀ (p : Option Char) (x : List Char) (n : Nat),
      M p x = some n → isWordOpt p = false)
    {ph : List Char} (h0 : ph.get? 0 = some '<')
    {p : Option Char} {c : Char} {r : List Char}
    (hM : ssnAt p (c :: r) = none) :
    ssnAt p (c :: renderPh ph (scanChunks M (some c) r)) = none := by
  rcases hm0 : ssnAt p (c :: renderPh ph (scanChunks M (some c) r)) with - | n
  · rfl
  exfalso
  rcases scanChunks_agree M ph hlen (some c) r with hid |
    ⟨g, m, l₂, hsplit, hmne, hmatch, hrender⟩
  · rw [hid, hM] at hm0
    cases hm0
  · rw [hrender, ← List.cons_append] at hm0
    rcases ssnAt_facts hm0 with ⟨hcls, -, ⟨d, hd, hdd⟩, hn1, -, hbaf⟩
    have hGlen : n ≤ (c :: g).length := by
      by_contra hgt
      push_neg at hgt
      rcases hcls (c :: g).length hgt with ⟨ch, hch, hchc⟩
      rw [List.get?_append_right le_rfl, Nat.sub_self] at hch
      have hplen : 0 < ph.length := by
        rcases List.get?_eq_some.1 h0 with ⟨hl, -⟩
        omega
      rw [List.get?_append hplen, h0] at hch
      injection hch with he
      subst he
      exact absurd hchc (by decide)
    rcases Nat.eq_or_lt_of_le hGlen with heq | hlt
    · have hn1' : n - 1 < (c :: g).length := by omega
      rw [List.get?_append hn1'] at hd
      have hwdm := hwd _ _ _ hmatch
      rw [prevAfter_getLast] at hwdm
      rw [List.getLast?_eq_get?] at hwdm
      rw [show (c :: g).length - 1 = n - 1 by omega] at hwdm
      rw [hd] at hwdm
      rw [show isWordOpt (some d) = isWordCh d from rfl, digit_word hdd]
        at hwdm
      cases hwdm
    · have hq : isWordOpt p = false := (ssnAt_eq_some hm0).1
      have hg : ((c :: g) ++
            (ph ++ renderPh ph (scanChunks M m.getLast? l₂))).get? n =
          ((c :: g) ++ (m ++ l₂)).get? n := by
        rw [List.get?_append hlt, List.get?_append hlt]
      have hby : bAfter ((c :: g) ++ (m ++ l₂)) n = true := by
        rw [← bAfter_congr hg]
        exact hbaf
      have hsome := ssnAt_transfer hm0 (Nat.le_of_lt hlt) hby hq
      rw [List.cons_append, ← hsplit, hM] at hsome
      simp at hsome

/-! ### Per-pass output invariants -/

/-- An email scan's own output has no email match anywhere. -/
theorem post_email_scan {ph : List Char}
    (hat : ∀ ch ∈ ph, ch ≠ '@') (hlast : ph.getLast? = some '>')
    (h0 : ph.get? 0 = some '<') :
    ∀ (prevIn : Option Char) (l : List Char) (prevOut : Option Char),
      existsMatch emailM prevOut
        (renderPh ph (scanChunks emailM prevIn l)) = false := by
  intro prevIn l
  induction prevIn, l using scanChunks.induct emailM with
  | case1 prevIn => intro prevOut; simp [scanChunks, renderPh, existsMatch]
  | case2 prevIn c r n hm ih =>
      intro prevOut
      rw [scanChunks_hit hm, renderPh, existsMatch_email_skip hat hlast]
      exact ih (prevAfter prevOut ph)
  | case3 prevIn c r hnm ih =>
      intro prevOut
      have hM : emailAt (c :: r) = none := by
        rcases hM0 : emailAt (c :: r) with - | k
        · rfl
        · cases k with
          | zero => exact absurd (emailAt_pos hM0) (by omega)
          | succ k => exact absurd hM0 (by intro h; exact hnm k h)
      rw [scanChunks_gap (show emailM prevIn (c :: r) = none from hM),
        renderPh, existsMatch]
      rw [show emailM prevOut
          (c :: renderPh ph (scanChunks emailM (some c) r)) =
        emailAt (c :: renderPh ph (scanChunks emailM (some c) r)) from rfl]
      rw [emailAt_gap_none emailM (fun p x k hk => emailAt_le_length hk)
        h0 hM]
      simp only [Option.isSome_none, Bool.false_or]
      exact ih (some c)

/-- A later scan preserves the absence of email matches. -/
theorem pres_email_scan (M : Option Char → List Char → Option Nat)
    (hlen : ∀ (p : Option Char) (x : List Char) (n : Nat),
      M p x = some n → n ≤ x.length)
    (hpos : ∀ (p : Option Char) (x : List Char) (n : Nat),
      M p x = some n → 1 ≤ n)
    {ph : List Char} (hat : ∀ ch ∈ ph, ch ≠ '@')
    (hlast : ph.getLast? = some '>') (h0 : ph.get? 0 = some '<') :
    ∀ (prevIn : Option Char) (l : List Char),
      existsMatch emailM prevIn l = false →
      ∀ prevOut,
        existsMatch emailM prevOut
          (renderPh ph (scanChunks M prevIn l)) = false := by
  intro prevIn l
  induction prevIn, l using scanChunks.induct M with
  | case1 prevIn =>
      intro hno prevOut
      simp [scanChunks, renderPh, existsMatch]
  | case2 prevIn c r n hm ih =>
      intro hno prevOut
      rw [scanChunks_hit hm, renderPh, existsMatch_email_skip hat hlast]
      refine ih ?_ (prevAfter prevOut ph)
      rw [show c :: r = (c :: r).take (n + 1) ++ (c :: r).drop (n + 1) from
        (List.take_append_drop _ _).symm] at hno
      have h2 := existsMatch_append_false _ _ _ hno
      exact (existsMatch_email_prev _ _ _).trans h2
  | case3 prevIn c r hnm ih =>
      intro hno prevOut
      rw [existsMatch] at hno
      have hM : emailAt (c :: r) = none := by
        rcases hM0 : emailAt (c :: r) with - | k
        · rfl
        · rw [show emailM prevIn (c :: r) = emailAt (c :: r) from rfl,
            hM0] at hno
          simp at hno
      have htl : existsMatch emailM (some c) r = false := by
        rcases ht : existsMatch emailM (some c) r
        · rfl
        · rw [ht] at hno; simp at hno
      have hMM : M prevIn (c :: r) = none := by
        rcases hM0 : M prevIn (c :: r) with - | k
        · rfl
        · cases k with
          | zero => have := hpos _ _ _ hM0; omega
          | succ k => exact absurd hM0 (by intro h; exact hnm k h)
      rw [scanChunks_gap hMM, renderPh, existsMatch]
      rw [show emailM prevOut (c :: renderPh ph (scanChunks M (some c) r)) =
        emailAt (c :: renderPh ph (scanChunks M (some c) r)) from rfl]
      rw [emailAt_gap_none M hlen h0 hM]
      simp only [Option.isSome_none, Bool.false_or]
      exact ih htl (some c)

/-- A card scan's own output has no card match anywhere. -/
theorem post_card_scan {ph : List Char}
    (hdig : ∀ ch ∈ ph, isDigitCh ch = false)
    (hlast : ph.getLast? = some '>') (h0 : ph.get? 0 = some '<') :
    ∀ (prevIn : Option Char) (l : List Char) (prevOut : Option Char),
      scanInv prevOut prevIn l →
      existsMatch cardAt prevOut
        (renderPh ph (scanChunks cardAt prevIn l)) = false := by
  intro prevIn l
  induction prevIn, l using scanChunks.induct cardAt with
  | case1 prevIn => intro prevOut _; simp [scanChunks, renderPh, existsMatch]
  | case2 prevIn c r n hm ih =>
      intro prevOut _
      rw [scanChunks_hit hm, renderPh, existsMatch_card_skip hdig,
        prevAfter_of_getLast hlast]
      apply ih (some '>')
      right
      refine ⟨by decide, ?_⟩
      rcases cardAt_eq_some hm with ⟨-, k, -, -, -, hb⟩
      exact bAfter_drop_head hb
  | case3 prevIn c r hnm ih =>
      intro prevOut hinv
      have hM : cardAt prevIn (c :: r) = none := by
        rcases hM0 : cardAt prevIn (c :: r) with - | k
        · rfl
        · cases k with
          | zero =>
              have := (cardAt_facts hM0).2.2.2.1
              omega
          | succ k => exact absurd hM0 (by intro h; exact hnm k h)
      rw [scanChunks_gap hM, renderPh, existsMatch]
      have hhead : cardAt prevOut
          (c :: renderPh ph (scanChunks cardAt (some c) r)) = none := by
        rcases hinv with ha | ⟨hwo, hhd⟩
        · rw [cardAt_congr_prev ha]
          exact cardAt_gap_none cardAt
            (fun p x k hk => (cardAt_facts hk).2.2.2.2)
            (fun p x k hk => (cardAt_eq_some hk).1) h0 hM
        · rcases hhd with hnil | ⟨d, r', heq, hw'⟩
          · exact absurd hnil (by simp)
          · injection heq with he htl2
            subst he
            exact cardAt_none_head (word_not_digit hw')
      rw [hhead]
      simp only [Option.isSome_none, Bool.false_or]
      exact ih (some c) (Or.inl rfl)

/-- A later scan preserves the absence of card matches, provided its own
matches start after a non-word character and end at a word boundary. -/
theorem pres_card_scan (M : Option Char → List Char → Option Nat)
    (hlen : ∀ (p : Option Char) (x : List Char) (n : Nat),
      M p x = some n → n ≤ x.length)
    (hwd : ∀ (p : Option Char) (x : List Char) (n : Nat),
      M p x = some n → isWordOpt p = false)
    (hpos : ∀ (p : Option Char) (x : List Char) (n : Nat),
      M p x = some n → 1 ≤ n)
    (hbnd : ∀ (p : Option Char) (x : List Char) (n : Nat),
      M p x = some n → bAfter x n = true)
    {ph : List Char} (hdig : ∀ ch ∈ ph, isDigitCh ch = false)
    (hlast : ph.getLast? = some '>') (h0 : ph.get? 0 = some '<') :
    ∀ (prevIn : Option Char) (l : List Char),
      existsMatch cardAt prevIn l = false →
      ∀ prevOut, scanInv prevOut prevIn l →
        existsMatch cardAt prevOut
          (renderPh ph (scanChunks M prevIn l)) = false := by
  intro prevIn l
  induction prevIn, l using scanChunks.induct M with
  | case1 prevIn =>
      intro hno prevOut _
      simp [scanChunks, renderPh, existsMatch]
  | case2 prevIn c r n hm ih =>
      intro hno prevOut _
      rw [scanChunks_hit hm, renderPh, existsMatch_card_skip hdig,
        prevAfter_of_getLast hlast]
      refine ih ?_ (some '>') ?_
      · rw [show c :: r = (c :: r).take (n + 1) ++ (c :: r).drop (n + 1) from
          (List.take_append_drop _ _).symm] at hno
        have h2 := existsMatch_append_false _ _ _ hno
        have hpa : prevAfter prevIn ((c :: r).take (n + 1)) =
            ((c :: r).take (n + 1)).getLast? := by
          rw [List.take_succ_cons, prevAfter_cons, prevAfter_getLast]
        rw [hpa] at h2
        exact h2
      · right
        exact ⟨by decide, bAfter_drop_head (hbnd _ _ _ hm)⟩
  | case3 prevIn c r hnm ih =>
      intro hno prevOut hinv
      rw [existsMatch] at hno
      have hM : cardAt prevIn (c :: r) = none := by
        rcases hM0 : cardAt prevIn (c :: r) with - | k
        · rfl
        · rw [hM0] at hno; simp at hno
      have htl : existsMatch cardAt (some c) r = false := by
        rcases ht : existsMatch cardAt (some c) r
        · rfl
        · rw [ht] at hno; simp at hno
      have hMM : M prevIn (c :: r) = none := by
        rcases hM0 : M prevIn (c :: r) with - | k
        · rfl
        · cases k with
          | zero => have := hpos _ _ _ hM0; omega
          | succ k => exact absurd hM0 (by intro h; exact hnm k h)
      rw [scanChunks_gap hMM, renderPh, existsMatch]
      have hhead : cardAt prevOut
          (c :: renderPh ph (scanChunks M (some c) r)) = none := by
        rcases hinv with ha | ⟨hwo, hhd⟩
        · rw [cardAt_congr_prev ha]
          exact cardAt_gap_none M hlen hwd h0 hM
        · rcases hhd with hnil | ⟨d, r', heq, hw'⟩
          · exact absurd hnil (by simp)
          · injection heq with he htl2
            subst he
            exact cardAt_none_head (word_not_digit hw')
      rw [hhead]
      simp only [Option.isSome_none, Bool.false_or]
      exact ih htl (some c) (Or.inl rfl)

/-- An SSN scan's own output has no SSN match anywhere. -/
theorem post_ssn_scan {ph : List Char}
    (hdig : ∀ ch ∈ ph, isDigitCh ch = false)
    (hlast : ph.getLast? = some '>') (h0 : ph.get? 0 = some '<') :
    ∀ (prevIn : Option Char) (l : List Char) (prevOut : Option Char),
      scanInv prevOut prevIn l →
      existsMatch ssnAt prevOut
        (renderPh ph (scanChunks ssnAt prevIn l)) = false := by
  intro prevIn l
  induction prevIn, l using scanChunks.induct ssnAt with
  | case1 prevIn => intro prevOut _; simp [scanChunks, renderPh, existsMatch]
  | case2 prevIn c r n hm ih =>
      intro prevOut _
      rw [scanChunks_hit hm, renderPh, existsMatch_ssn_skip hdig,
        prevAfter_of_getLast hlast]
      apply ih (some '>')
      right
      refine ⟨by decide, ?_⟩
      exact bAfter_drop_head (ssnAt_facts hm).2.2.2.2.2
  | case3 prevIn c r hnm ih =>
      intro prevOut hinv
      have hM : ssnAt prevIn (c :: r) = none := by
        rcases hM0 : ssnAt prevIn (c :: r) with - | k
        · rfl
        · cases k with
          | zero =>
              have := (ssnAt_facts hM0).2.2.2.1
              omega
          | succ k => exact absurd hM0 (by intro h; exact hnm k h)
      rw [scanChunks_gap hM, renderPh, existsMatch]
      have hhead : ssnAt prevOut
          (c :: renderPh ph (scanChunks ssnAt (some c) r)) = none := by
        rcases hinv with ha | ⟨hwo, hhd⟩
        · rw [ssnAt_congr_prev ha]
          exact ssnAt_gap_none ssnAt
            (fun p x k hk => (ssnAt_facts hk).2.2.2.2.1)
            (fun p x k hk => (ssnAt_eq_some hk).1) h0 hM
        · rcases hhd with hnil | ⟨d, r', heq, hw'⟩
          · exact absurd hnil (by simp)
          · injection heq with he htl2
            subst he
            exact ssnAt_none_head (word_not_digit hw')
      rw [hhead]
      simp only [Option.isSome_none, Bool.false_or]
      exact ih (some c) (Or.inl rfl)

/-- The rewritten text of `sanitize` is the three-fold global replace. -/
theorem sanitize_text_eq (s : String) :
    (sanitize s).redactedMessage.data =
      jsReplaceAll ssnAt ("<REDACTED: SSN>".data)
        (jsReplaceAll cardAt ("<REDACTED: CREDIT_CARD>".data)
          (jsReplaceAll emailM ("<REDACTED: EMAIL>".data) s.data)) := by
  have hpat : PII_PATTERNS = scanOrder.map fun t => (t, placeholderFor t) := by
    decide
  have h := sanitize_foldl_spec scanOrder s.data ([] : List (PIIType × Nat))
  unfold sanitize
  rw [hpat]
  simp only [h]
  show (specScanAll scanOrder s.data).1 = _
  simp only [scanOrder, specScanAll, specScan]
  rfl

/-- C3: for every input string, the `redactedMessage` returned by
`sanitize` contains no substring matching any of the three PII patterns
(the EMAIL regex, the CREDIT_CARD regex, or the SSN regex), each evaluated
with its word-boundary assertions in the context of the full output. -/
theorem sanitize_output_matches_no_pattern (s : String) (t : PIIType) :
    existsMatch t.matcher none (sanitize s).redactedMessage.data = false := by
  rw [sanitize_text_eq]
  simp only [jsReplaceAll]
  cases t with
  | EMAIL =>
      show existsMatch emailM none _ = false
      apply pres_email_scan ssnAt
        (fun p x n h => (ssnAt_facts h).2.2.2.2.1)
        (fun p x n h => (ssnAt_facts h).2.2.2.1)
        (by decide) (by decide) (by decide)
      apply pres_email_scan cardAt
        (fun p x n h => (cardAt_facts h).2.2.2.2)
        (fun p x n h => (cardAt_facts h).2.2.2.1)
        (by decide) (by decide) (by decide)
      exact post_email_scan (by decide) (by decide) (by decide) none s.data none
  | CREDIT_CARD =>
      show existsMatch cardAt none _ = false
      apply pres_card_scan ssnAt
        (fun p x n h => (ssnAt_facts h).2.2.2.2.1)
        (fun p x n h => (ssnAt_eq_some h).1)
        (fun p x n h => (ssnAt_facts h).2.2.2.1)
        (fun p x n h => (ssnAt_facts h).2.2.2.2.2)
        (by decide) (by decide) (by decide)
      · exact post_card_scan (by decide) (by decide) (by decide) none _ none
          (Or.inl rfl)
      · exact Or.inl rfl
  | SSN =>
      show existsMatch ssnAt none _ = false
      exact post_ssn_scan (by decide) (by decide) (by decide) none _ none
        (Or.inl rfl)

end GuardianGateway
